import Mathlib

/-!
Verification of the controller config guard
(`backend/tauri/src/config/clash/mod.rs` of clash-nyanpasu).

The development shallowly embeds:
  * the `serde_yaml` value / mapping model (ordered association list,
    insert replaces in place, get finds the first matching key);
  * Rust `core::net`'s `SocketAddr` parser (`FromStr`) and `Display`
    implementations, which `guard_server_ctrl` / `guard_client_ctrl`
    rely on for normalization;
  * the guard functions themselves: `guard_mixed_port`,
    `guard_server_ctrl`, `guard_client_ctrl`, `guard`, `patch_config`,
    `get_client_info`, `prepare_external_controller_port`.

Machine integers are modelled as `Nat` with explicit bounds / `% 2 ^ w`
where the Rust code truncates.
-/

set_option maxHeartbeats 1000000

abbrev Chars := List Char

/-- Unicode `White_Space` code points, as used by Rust `char::is_whitespace`
(via `str::trim`). -/
def rustWhitespace (c : Char) : Bool :=
  decide (c.toNat ∈ [9, 10, 11, 12, 13, 32, 133, 160, 5760,
    8192, 8193, 8194, 8195, 8196, 8197, 8198, 8199, 8200, 8201, 8202,
    8232, 8233, 8239, 8287, 12288])

/-- Rust `str::trim`: drop whitespace from both ends. -/
def trimChars (cs : Chars) : Chars :=
  ((cs.dropWhile rustWhitespace).reverse.dropWhile rustWhitespace).reverse

/-- The digit value of a character before the radix filter of
`char::to_digit`. -/
def charDigitRaw (c : Char) : Option Nat :=
  if 48 ≤ c.toNat ∧ c.toNat ≤ 57 then some (c.toNat - 48)
  else if 97 ≤ c.toNat ∧ c.toNat ≤ 122 then some (c.toNat - 87)
  else if 65 ≤ c.toNat ∧ c.toNat ≤ 90 then some (c.toNat - 55)
  else none

/-- Rust `char::to_digit radix`. -/
def charToDigit (radix : Nat) (c : Char) : Option Nat :=
  match charDigitRaw c with
  | some d => if d < radix then some d else none
  | none => none

/-- Greedily read the digits (in `radix`) at the head of the input,
returning their values and the unconsumed rest.  Models the digit loop of
`core::net::parser::Parser::read_number`. -/
def readDigits (radix : Nat) : Chars → (List Nat × Chars)
  | [] => ([], [])
  | c :: rest =>
    match charToDigit radix c with
    | some d =>
      let p := readDigits radix rest
      (d :: p.1, p.2)
    | none => ([], c :: rest)

def foldDigits (radix : Nat) (ds : List Nat) : Nat :=
  ds.foldl (fun a d => a * radix + d) 0

def tooManyDigits (maxDigits : Option Nat) (n : Nat) : Bool :=
  match maxDigits with
  | some m => decide (m < n)
  | none => false

/-- `has_leading_zero = p.peek_char() == Some('0')`. -/
def hasLeadingZero (cs : Chars) : Bool :=
  decide (cs.head? = some '0')

/-- `Parser::read_number (radix) (max_digits) (allow_zero_prefix)` reading
into an unsigned integer type with `bound = 2 ^ width`; the checked
arithmetic of the Rust code fails exactly when the numeric value of the
digit string reaches `bound`. -/
def readNumber (radix : Nat) (maxDigits : Option Nat) (allowZero : Bool)
    (bound : Nat) (cs : Chars) : Option (Nat × Chars) :=
  let p := readDigits radix cs
  if p.1.isEmpty then none
  else if tooManyDigits maxDigits p.1.length then none
  else if bound ≤ foldDigits radix p.1 then none
  else if !allowZero && hasLeadingZero cs && decide (1 < p.1.length) then none
  else some (foldDigits radix p.1, p.2)

def expectChar (c : Char) : Chars → Option Chars
  | [] => none
  | x :: rest => if x = c then some rest else none

/-- `Parser::read_separator`: at index 0 no separator is required. -/
def readSeparator {α : Type} (sep : Char) (i : Nat)
    (inner : Chars → Option (α × Chars)) (cs : Chars) : Option (α × Chars) :=
  if i = 0 then inner cs
  else
    match expectChar sep cs with
    | some rest => inner rest
    | none => none

structure Ipv4 where
  a : Nat
  b : Nat
  c : Nat
  d : Nat
deriving DecidableEq, Repr

/-- One IPv4 octet: `read_number(10, Some(3), false)` into `u8`. -/
def readOctet : Chars → Option (Nat × Chars) :=
  readNumber 10 (some 3) false 256

/-- `Parser::read_ipv4_addr`. -/
def readIpv4 (cs : Chars) : Option (Ipv4 × Chars) := do
  let (a, r) ← readOctet cs
  let r ← expectChar '.' r
  let (b, r) ← readOctet r
  let r ← expectChar '.' r
  let (c, r) ← readOctet r
  let r ← expectChar '.' r
  let (d, r) ← readOctet r
  pure (⟨a, b, c, d⟩, r)

/-- One IPv6 group: `read_number(16, Some(4), true)` into `u16`. -/
def readHexGroup : Chars → Option (Nat × Chars) :=
  readNumber 16 (some 4) true 65536

/-- The loop body of `read_ipv6_addr::read_groups`; the first argument is
the number of group slots still available, `i` the current group index.
Returns the group values read, whether a trailing embedded IPv4 address
was read, and the unconsumed input. -/
def readGroupsGo : Nat → Nat → Chars → (List Nat × Bool × Chars)
  | 0, _, cs => ([], false, cs)
  | limit + 1, i, cs =>
    match (if 1 ≤ limit then readSeparator ':' i readIpv4 cs else none) with
    | some (v4, rest) => ([v4.a * 256 + v4.b, v4.c * 256 + v4.d], true, rest)
    | none =>
      match readSeparator ':' i readHexGroup cs with
      | some (g, rest) =>
        let p := readGroupsGo limit (i + 1) rest
        (g :: p.1, p.2.1, p.2.2)
      | none => ([], false, cs)

def readGroups (limit : Nat) (cs : Chars) : (List Nat × Bool × Chars) :=
  readGroupsGo limit 0 cs

/-- `Parser::read_ipv6_addr`; an address is its list of eight 16-bit
segments. -/
def readIpv6 (cs : Chars) : Option (List Nat × Chars) :=
  let h := readGroups 8 cs
  if h.1.length = 8 then some (h.1, h.2.2)
  else if h.2.1 then none
  else
    match expectChar ':' h.2.2 with
    | none => none
    | some r2 =>
      match expectChar ':' r2 with
      | none => none
      | some r3 =>
        let limit := 8 - (h.1.length + 1)
        let t := readGroupsGo limit 0 r3
        if t.2.2.head? = some ':' then none
        else
          some (h.1 ++ List.replicate (8 - h.1.length - t.1.length) 0 ++ t.1,
            t.2.2)

/-- `Parser::read_port`: `':'` then `read_number(10, None, true)` into
`u16`. -/
def readPort (cs : Chars) : Option (Nat × Chars) := do
  let r ← expectChar ':' cs
  readNumber 10 none true 65536 r

/-- `Parser::read_scope_id`: `'%'` then `read_number(10, None, true)` into
`u32`. -/
def readScopeId (cs : Chars) : Option (Nat × Chars) := do
  let r ← expectChar '%' cs
  readNumber 10 none true 4294967296 r

inductive SockAddr where
  | v4 (ip : Ipv4) (port : Nat)
  | v6 (segs : List Nat) (port : Nat) (scope : Nat)
deriving DecidableEq, Repr

/-- `Parser::read_socket_addr_v4`. -/
def readSocketAddrV4 (cs : Chars) : Option (SockAddr × Chars) := do
  let (ip, r) ← readIpv4 cs
  let (p, r) ← readPort r
  pure (SockAddr.v4 ip p, r)

/-- `Parser::read_socket_addr_v6`. -/
def readSocketAddrV6 (cs : Chars) : Option (SockAddr × Chars) := do
  let r ← expectChar '[' cs
  let (segs, r) ← readIpv6 r
  let sc : Nat × Chars :=
    match readScopeId r with
    | some p => p
    | none => (0, r)
  let r ← expectChar ']' sc.2
  let (p, r) ← readPort r
  pure (SockAddr.v6 segs p sc.1, r)

def readSocketAddr (cs : Chars) : Option (SockAddr × Chars) :=
  match readSocketAddrV4 cs with
  | some res => some res
  | none => readSocketAddrV6 cs

/-- `SocketAddr::from_str`: the whole input must be consumed. -/
def parseSockChars (cs : Chars) : Option SockAddr :=
  match readSocketAddr cs with
  | some (a, []) => some a
  | _ => none

def parseSocketAddr (s : String) : Option SockAddr :=
  parseSockChars s.data

/-! ## Display (Rust `Display` impls for addresses) -/

/-- Little-endian digits, structurally recursive on a fuel argument so
that the definition computes by kernel reduction. -/
def digitsLEBGo (b : Nat) : Nat → Nat → List Nat
  | _, 0 => []
  | 0, _ + 1 => []
  | fuel + 1, n + 1 =>
    (n + 1) % (b + 2) :: digitsLEBGo b fuel ((n + 1) / (b + 2))

/-- Little-endian digits of `n` in base `b + 2` (the shift keeps the base
at least two). -/
def digitsLEB (b : Nat) (n : Nat) : List Nat :=
  digitsLEBGo b n n

/-- Big-endian digit list of `n` in base `b + 2`, nonempty (`0 ↦ [0]`). -/
def repDigits (b : Nat) (n : Nat) : List Nat :=
  if n = 0 then [0] else (digitsLEB b n).reverse

/-- Digit character as produced by Rust's `fmt::Display` / `{:x}`:
lowercase. -/
def hexDigitChar (d : Nat) : Char :=
  if d < 10 then Char.ofNat (48 + d) else Char.ofNat (87 + d)

/-- Decimal rendering of a nonnegative integer (`{}` on unsigned ints). -/
def decChars (n : Nat) : Chars := (repDigits 8 n).map hexDigitChar

/-- Lowercase hex rendering without leading zeros (`{:x}` on `u16`). -/
def hexChars (n : Nat) : Chars := (repDigits 14 n).map hexDigitChar

/-- `Display for Ipv4Addr`. -/
def ipv4Chars (ip : Ipv4) : Chars :=
  decChars ip.a ++ '.' :: decChars ip.b ++ '.' :: decChars ip.c ++
    '.' :: decChars ip.d

/-- `Ipv6Addr::to_ipv4_mapped`: segments `[0,0,0,0,0,0xffff,g,h]`. -/
def v4mapped : List Nat → Option Ipv4
  | [0, 0, 0, 0, 0, 65535, g, h] =>
    some ⟨g / 256, g % 256, h / 256, h % 256⟩
  | _ => none

/-- The zero-run search of `Display for Ipv6Addr`: current and longest
spans as `(start, len)`; first longest run wins. -/
def zeroRunGo : List Nat → Nat → (Nat × Nat) → (Nat × Nat) → (Nat × Nat)
  | [], _, _, longest => longest
  | s :: rest, i, current, longest =>
    if s = 0 then
      let cur := if current.2 = 0 then (i, 1) else (current.1, current.2 + 1)
      let lon := if cur.2 > longest.2 then cur else longest
      zeroRunGo rest (i + 1) cur lon
    else zeroRunGo rest (i + 1) (0, 0) longest

def zeroRun (segs : List Nat) : Nat × Nat :=
  zeroRunGo segs 0 (0, 0) (0, 0)

/-- `fmt_subslice`: hex groups joined by `':'`. -/
def colonGroups : List Nat → Chars
  | [] => []
  | g :: gs => ':' :: hexChars g ++ colonGroups gs

def groupsChars : List Nat → Chars
  | [] => []
  | g :: gs => hexChars g ++ colonGroups gs

/-- `Display for Ipv6Addr` (no width/precision): IPv4-mapped special
form, else compress the first longest run of ≥ 2 zero groups. -/
def ipv6Chars (segs : List Nat) : Chars :=
  match v4mapped segs with
  | some ip => ':' :: ':' :: 'f' :: 'f' :: 'f' :: 'f' :: ':' :: ipv4Chars ip
  | none =>
    let zr := zeroRun segs
    if 1 < zr.2 then
      groupsChars (segs.take zr.1) ++ ':' :: ':' ::
        groupsChars (segs.drop (zr.1 + zr.2))
    else groupsChars segs

/-- `Display for SocketAddr`; a `SocketAddrV6` shows its scope id when it
is nonzero. -/
def SockAddr.chars : SockAddr → Chars
  | .v4 ip p => ipv4Chars ip ++ ':' :: decChars p
  | .v6 segs p scope =>
    if scope = 0 then '[' :: ipv6Chars segs ++ ']' :: ':' :: decChars p
    else '[' :: ipv6Chars segs ++ '%' :: decChars scope ++
      ']' :: ':' :: decChars p

def SockAddr.str (a : SockAddr) : String := ⟨a.chars⟩

/-- `IpAddr::is_unspecified` on the address of a socket. -/
def SockAddr.ipUnspecified : SockAddr → Bool
  | .v4 ip _ => decide (ip = ⟨0, 0, 0, 0⟩)
  | .v6 segs _ _ => segs.all (fun s => decide (s = 0))

/-- `SocketAddr::set_ip(IpAddr::V4(127.0.0.1))`: switching a V6 socket to
a V4 address rebuilds it as a `SocketAddrV4` keeping the port. -/
def SockAddr.setLoopback : SockAddr → SockAddr
  | .v4 _ p => .v4 ⟨127, 0, 0, 1⟩ p
  | .v6 _ p _ => .v4 ⟨127, 0, 0, 1⟩ p

def SockAddr.port : SockAddr → Nat
  | .v4 _ p => p
  | .v6 _ p _ => p

/-! ## The `serde_yaml` value model -/

/-- `serde_yaml::Number`: `PosInt(u64) | NegInt(i64) | Float(f64)`.
`NegInt` is only built for negative values (here `neg m` stands for the
integer `-(m + 1)`); a float is kept as its display text, which is all
the guarded code ever extracts from one. -/
inductive YNum where
  | pos (n : Nat)
  | neg (m : Nat)
  | float (txt : String)
deriving DecidableEq, Repr

/-- `serde_yaml::Number::as_u64`: only `PosInt`. -/
def YNum.as_u64 : YNum → Option Nat
  | .pos n => some n
  | _ => none

/-- `ToString for serde_yaml::Number`. -/
def YNum.toStr : YNum → String
  | .pos n => ⟨decChars n⟩
  | .neg m => ⟨'-' :: decChars (m + 1)⟩
  | .float txt => txt

/-- `serde_yaml::Value`. -/
inductive YValue where
  | null
  | bool (b : Bool)
  | num (n : YNum)
  | str (s : String)
  | seq (xs : List YValue)
  | map (m : List (YValue × YValue))

mutual

def YValue.decEq : (a b : YValue) → Decidable (a = b)
  | .null, .null => isTrue rfl
  | .null, .bool _ => isFalse (fun h => YValue.noConfusion h)
  | .null, .num _ => isFalse (fun h => YValue.noConfusion h)
  | .null, .str _ => isFalse (fun h => YValue.noConfusion h)
  | .null, .seq _ => isFalse (fun h => YValue.noConfusion h)
  | .null, .map _ => isFalse (fun h => YValue.noConfusion h)
  | .bool _, .null => isFalse (fun h => YValue.noConfusion h)
  | .bool x, .bool y =>
    if h : x = y then isTrue (by rw [h]) else
      isFalse (fun hc => h (by injection hc))
  | .bool _, .num _ => isFalse (fun h => YValue.noConfusion h)
  | .bool _, .str _ => isFalse (fun h => YValue.noConfusion h)
  | .bool _, .seq _ => isFalse (fun h => YValue.noConfusion h)
  | .bool _, .map _ => isFalse (fun h => YValue.noConfusion h)
  | .num _, .null => isFalse (fun h => YValue.noConfusion h)
  | .num _, .bool _ => isFalse (fun h => YValue.noConfusion h)
  | .num x, .num y =>
    if h : x = y then isTrue (by rw [h]) else
      isFalse (fun hc => h (by injection hc))
  | .num _, .str _ => isFalse (fun h => YValue.noConfusion h)
  | .num _, .seq _ => isFalse (fun h => YValue.noConfusion h)
  | .num _, .map _ => isFalse (fun h => YValue.noConfusion h)
  | .str _, .null => isFalse (fun h => YValue.noConfusion h)
  | .str _, .bool _ => isFalse (fun h => YValue.noConfusion h)
  | .str _, .num _ => isFalse (fun h => YValue.noConfusion h)
  | .str x, .str y =>
    if h : x = y then isTrue (by rw [h]) else
      isFalse (fun hc => h (by injection hc))
  | .str _, .seq _ => isFalse (fun h => YValue.noConfusion h)
  | .str _, .map _ => isFalse (fun h => YValue.noConfusion h)
  | .seq _, .null => isFalse (fun h => YValue.noConfusion h)
  | .seq _, .bool _ => isFalse (fun h => YValue.noConfusion h)
  | .seq _, .num _ => isFalse (fun h => YValue.noConfusion h)
  | .seq _, .str _ => isFalse (fun h => YValue.noConfusion h)
  | .seq xs, .seq ys =>
    match YValue.decEqList xs ys with
    | isTrue h => isTrue (by rw [h])
    | isFalse h => isFalse (fun hc => h (by injection hc))
  | .seq _, .map _ => isFalse (fun h => YValue.noConfusion h)
  | .map _, .null => isFalse (fun h => YValue.noConfusion h)
  | .map _, .bool _ => isFalse (fun h => YValue.noConfusion h)
  | .map _, .num _ => isFalse (fun h => YValue.noConfusion h)
  | .map _, .str _ => isFalse (fun h => YValue.noConfusion h)
  | .map _, .seq _ => isFalse (fun h => YValue.noConfusion h)
  | .map xs, .map ys =>
    match YValue.decEqPairs xs ys with
    | isTrue h => isTrue (by rw [h])
    | isFalse h => isFalse (fun hc => h (by injection hc))

def YValue.decEqList : (a b : List YValue) → Decidable (a = b)
  | [], [] => isTrue rfl
  | [], _ :: _ => isFalse (fun h => List.noConfusion h)
  | _ :: _, [] => isFalse (fun h => List.noConfusion h)
  | x :: xs, y :: ys =>
    match YValue.decEq x y with
    | isFalse h => isFalse (fun hc => h (by injection hc))
    | isTrue h =>
      match YValue.decEqList xs ys with
      | isTrue h2 => isTrue (by rw [h, h2])
      | isFalse h2 => isFalse (fun hc => h2 (by injection hc))

def YValue.decEqPairs : (a b : List (YValue × YValue)) → Decidable (a = b)
  | [], [] => isTrue rfl
  | [], _ :: _ => isFalse (fun h => List.noConfusion h)
  | _ :: _, [] => isFalse (fun h => List.noConfusion h)
  | (k1, v1) :: xs, (k2, v2) :: ys =>
    match YValue.decEq k1 k2 with
    | isFalse h =>
      isFalse (fun hc => h (by injection hc with h1 h2; injection h1))
    | isTrue h =>
      match YValue.decEq v1 v2 with
      | isFalse hv =>
        isFalse (fun hc => hv (by injection hc with h1 h2; injection h1))
      | isTrue hv =>
        match YValue.decEqPairs xs ys with
        | isTrue h2 => isTrue (by rw [h, hv, h2])
        | isFalse h2 => isFalse (fun hc => h2 (by injection hc))

end

instance : DecidableEq YValue := YValue.decEq

/-- `Value::as_str`: only the `String` variant. -/
def YValue.as_str : YValue → Option String
  | .str s => some s
  | _ => none

/-- `serde_yaml::Mapping`: an insertion-ordered association list with
unique keys (`IndexMap`). -/
abbrev Mapping := List (YValue × YValue)

/-- `Mapping::get`. -/
def mget (m : Mapping) (k : YValue) : Option YValue :=
  match m with
  | [] => none
  | p :: rest => if p.1 = k then some p.2 else mget rest k

def mcontains (m : Mapping) (k : YValue) : Bool :=
  match m with
  | [] => false
  | p :: rest => if p.1 = k then true else mcontains rest k

/-- `Mapping::insert` (`IndexMap` semantics): replace in place if the key
is present, else append. -/
def minsert (m : Mapping) (k v : YValue) : Mapping :=
  if mcontains m k then
    m.map (fun p => if p.1 = k then (k, v) else p)
  else m ++ [(k, v)]

/-! ## The guarded config component (`IClashTemp`) -/

/-- The digit part of `u16::from_str` after the optional sign. -/
def parseU16Body (body : Chars) : Option Nat :=
  match body with
  | [] => none
  | _ =>
    if body.all (fun c => (charToDigit 10 c).isSome) then
      if foldDigits 10 (body.map (fun c => (charToDigit 10 c).getD 0)) <
          65536 then
        some (foldDigits 10 (body.map (fun c => (charToDigit 10 c).getD 0)))
      else none
    else none

/-- `str::parse::<u16>` (`u16::from_str`): optional `'+'`, one or more
ASCII decimal digits, value below `2 ^ 16`. -/
def parseU16Chars (cs : Chars) : Option Nat :=
  parseU16Body
    (match cs with
     | '+' :: r => r
     | _ => cs)

/-- Rust `str::split_once`: split at the first occurrence of `sep`. -/
def splitOnce (sep : Char) : Chars → Option (Chars × Chars)
  | [] => none
  | c :: rest =>
    if c = sep then some ([], rest)
    else (splitOnce sep rest).map (fun p => (c :: p.1, p.2))

/-- `ClashInfo`. -/
structure ClashInfo where
  port : Nat
  server : String
  secret : Option String
deriving DecidableEq, Repr

namespace IClashTemp

/-- `IClashTemp::guard_mixed_port`. -/
def guard_mixed_port (config : Mapping) : Nat :=
  let port :=
    ((mget config (.str "mixed-port")).bind (fun value =>
      match value with
      | .str s => parseU16Chars s.data
      | .num n => (YNum.as_u64 n).map (fun u => u % 65536)
      | _ => none)).getD 7890
  if port = 0 then 7890 else port

/-- `IClashTemp::guard_server_ctrl`. -/
def guard_server_ctrl (config : Mapping) : String :=
  ((mget config (.str "external-controller")).bind (fun value =>
    match value.as_str with
    | some s =>
      let t := trimChars s.data
      let val := if t.head? = some ':' then
          '1' :: '2' :: '7' :: '.' :: '0' :: '.' :: '0' :: '.' :: '1' :: t
        else t
      (parseSockChars val).map SockAddr.str
    | none => none)).getD "127.0.0.1:9090"

/-- `IClashTemp::guard_client_ctrl`. -/
def guard_client_ctrl (config : Mapping) : String :=
  let value := guard_server_ctrl config
  match parseSockChars value.data with
  | some socket =>
    if socket.ipUnspecified then (socket.setLoopback).str else socket.str
  | none => "127.0.0.1:9090"

/-- `IClashTemp::guard`. -/
def guard (config : Mapping) : Mapping :=
  let port := guard_mixed_port config
  let ctrl := guard_server_ctrl config
  minsert (minsert config (.str "mixed-port") (.num (.pos port)))
    (.str "external-controller") (.str ctrl)

/-- `IClashTemp::patch_config`. -/
def patch_config (doc : Mapping) (patch : Mapping) : Mapping :=
  patch.foldl (fun acc p => minsert acc p.1 p.2) doc

/-- `IClashTemp::get_client_info`. -/
def get_client_info (config : Mapping) : ClashInfo :=
  { port := guard_mixed_port config
    server := guard_client_ctrl config
    secret := (mget config (.str "secret")).bind (fun value =>
      match value with
      | .str s => some s
      | .bool b => some (if b then "true" else "false")
      | .num n => some n.toStr
      | _ => none) }

/-- `IClashTemp::prepare_external_controller_port`.  The strategy lookup
and `get_clash_external_port` live outside this crate's file; they are
abstracted as the fallible `resolve` callback, which receives the port
the code extracted from the client address.  The Rust receiver is
`&mut self` returning `Result<()>`; here the state is passed and
returned explicitly. -/
def prepare_external_controller_port {E : Type} (resolve : Nat → Except E Nat)
    (self : Mapping) : Except E Unit × Mapping :=
  let server := (get_client_info self).server
  let sp := (splitOnce ':' server.data).getD
    (['1', '2', '7', '.', '0', '.', '0', '.', '1'], ['9', '0', '9', '0'])
  let server_port := (parseU16Chars sp.2).getD 9090
  match resolve server_port with
  | .error e => (.error e, self)
  | .ok port =>
    if port ≠ server_port then
      let new_server : String := ⟨sp.1 ++ ':' :: decChars port⟩
      (.ok (), patch_config self
        [(.str "external-controller", .str new_server)])
    else (.ok (), self)

end IClashTemp

/-- No digit (in `radix` `r`) can be read at the head of `rest`. -/
def noDigit (r : Nat) (rest : Chars) : Prop :=
  ∀ c, rest.head? = some c → charToDigit r c = none

/-- After this input no further group (hex or embedded IPv4) can start,
even behind one separating colon; this holds at the end of a rendered
group run. -/
def blockedGroups (rest : Chars) : Prop :=
  noDigit 16 rest ∧ (∀ c, rest.head? = some c → c ≠ '.') ∧
  (∀ r, rest = ':' :: r →
    noDigit 16 r ∧ (∀ c, r.head? = some c → c ≠ '.'))

/-- Positions `s, s+1, …, s+l-1` of `F` all hold `0`. -/
def AllZero (F : List Nat) (s l : Nat) : Prop :=
  ∀ j, j < l → F[s + j]? = some 0

/-- The bounds a parsed socket address always satisfies (machine-integer
ranges of the Rust types). -/
def SockAddr.wf : SockAddr → Prop
  | .v4 ip p =>
    ip.a < 256 ∧ ip.b < 256 ∧ ip.c < 256 ∧ ip.d < 256 ∧ p < 65536
  | .v6 segs p scope =>
    segs.length = 8 ∧ (∀ s ∈ segs, s < 65536) ∧ p < 65536 ∧
      scope < 4294967296

/-- Every pair with key `k` in `m` is exactly `(k, v)`. -/
def AllKeyVal (m : Mapping) (k v : YValue) : Prop :=
  ∀ p ∈ m, p.1 = k → p = (k, v)

def keysOf (m : Mapping) : List YValue := m.map Prod.fst

/-- Modelled from the spec's words (§4.2 port normalization, claims about
`guard_mixed_port`): accept a numeric value convertible to `u64` or a
string parseable as `u16`; an in-range value 1..65535 passes unchanged, a
numeric value beyond 16 bits is truncated `mod 2 ^ 16`, and a missing
key, other shape, parse failure, or resulting value of exactly `0`
defaults to `7890`. -/
def mixedPortSpec (cfg : Mapping) : Nat :=
  match mget cfg (.str "mixed-port") with
  | some (.num n) =>
    match YNum.as_u64 n with
    | some u =>
      if 1 ≤ u ∧ u ≤ 65535 then u
      else if u % 65536 = 0 then 7890
      else u % 65536
    | none => 7890
  | some (.str s) =>
    match parseU16Chars s.data with
    | some v => if v = 0 then 7890 else v
    | none => 7890
  | _ => 7890

/-- Modelled from the spec's words (§4.2 controller address
normalization): read `external-controller` as a string, trim whitespace,
prefix `127.0.0.1` to a `:`-led port-only form, parse as a socket
address, re-serialize canonically on success and default to
`127.0.0.1:9090` on any failure or other shape. -/
def serverCtrlSpec (cfg : Mapping) : String :=
  match mget cfg (.str "external-controller") with
  | some (.str s) =>
    match parseSockChars
        (if (trimChars s.data).head? = some ':' then
          '1' :: '2' :: '7' :: '.' :: '0' :: '.' :: '0' :: '.' :: '1' ::
            trimChars s.data
        else trimChars s.data) with
    | some a => a.str
    | none => "127.0.0.1:9090"
  | _ => "127.0.0.1:9090"

/-- The substring of the client address before the first colon, as
`prepare_external_controller_port` extracts it with `split_once`. -/
def clientHostPre (cfg : Mapping) : Chars :=
  ((splitOnce ':' (IClashTemp.get_client_info cfg).server.data).getD
    (['1', '2', '7', '.', '0', '.', '0', '.', '1'],
      ['9', '0', '9', '0'])).1

/-- The port number `prepare_external_controller_port` parses out of the
substring after the first colon of the client address (`9090` when that
fails). -/
def clientPortNum (cfg : Mapping) : Nat :=
  (parseU16Chars
    ((splitOnce ':' (IClashTemp.get_client_info cfg).server.data).getD
      (['1', '2', '7', '.', '0', '.', '0', '.', '1'],
        ['9', '0', '9', '0'])).2).getD 9090

theorem digitsLEBGo_irrel (b : Nat) :
    ∀ fuel fuel' m, m ≤ fuel → m ≤ fuel' →
      digitsLEBGo b fuel m = digitsLEBGo b fuel' m := by
  intro fuel
  induction fuel with
  | zero =>
    intro fuel' m hm _
    interval_cases m
    cases fuel' <;> rfl
  | succ fuel ih =>
    intro fuel' m hm hm'
    match m, fuel', hm' with
    | 0, fuel', _ => cases fuel' <;> rfl
    | k + 1, fuel' + 1, hm' =>
      rw [digitsLEBGo, digitsLEBGo]
      have hdiv : (k + 1) / (b + 2) ≤ fuel := by
        have := Nat.div_lt_self (show 0 < k + 1 by omega) (show 1 < b + 2 by omega)
        omega
      have hdiv' : (k + 1) / (b + 2) ≤ fuel' := by
        have := Nat.div_lt_self (show 0 < k + 1 by omega) (show 1 < b + 2 by omega)
        omega
      rw [ih fuel' ((k + 1) / (b + 2)) hdiv hdiv']

theorem digitsLEB_zero (b : Nat) : digitsLEB b 0 = [] := rfl

theorem digitsLEB_succ (b n : Nat) :
    digitsLEB b (n + 1) = (n + 1) % (b + 2) :: digitsLEB b ((n + 1) / (b + 2)) := by
  unfold digitsLEB
  rw [show digitsLEBGo b (n + 1) (n + 1) =
    (n + 1) % (b + 2) :: digitsLEBGo b n ((n + 1) / (b + 2)) from rfl]
  have hdiv : (n + 1) / (b + 2) ≤ n := by
    have := Nat.div_lt_self (show 0 < n + 1 by omega) (show 1 < b + 2 by omega)
    omega
  rw [digitsLEBGo_irrel b n ((n + 1) / (b + 2)) ((n + 1) / (b + 2)) hdiv
    (Nat.le_refl _)]



/-! ## Digit and character foundations -/

theorem charToDigit_hexDigitChar16 :
    ∀ d : Fin 16, charToDigit 16 (hexDigitChar d.val) = some d.val := by
  decide

theorem charToDigit_hexDigitChar10 :
    ∀ d : Fin 10, charToDigit 10 (hexDigitChar d.val) = some d.val := by
  decide

theorem hexDigitChar_ne_dot : ∀ d : Fin 16, hexDigitChar d.val ≠ '.' := by
  decide

theorem hexDigitChar_ne_colon : ∀ d : Fin 16, hexDigitChar d.val ≠ ':' := by
  decide

theorem hexDigitChar_not_ws :
    ∀ d : Fin 16, rustWhitespace (hexDigitChar d.val) = false := by
  decide

theorem hexDigitChar_eq_zeroChar :
    ∀ d : Fin 16, (hexDigitChar d.val = '0') ↔ d.val = 0 := by
  decide

theorem charToDigit16_none_to10 {c : Char}
    (h : charToDigit 16 c = none) : charToDigit 10 c = none := by
  unfold charToDigit at h ⊢
  rcases hraw : charDigitRaw c with _ | d
  · rfl
  · rw [hraw] at h
    have h' : (if d < 16 then some d else none) = (none : Option Nat) := h
    show (if d < 10 then some d else none) = (none : Option Nat)
    by_cases h16 : d < 16
    · simp [h16] at h'
    · simp [show ¬d < 10 by omega]

theorem fold_digitsLEB (b : Nat) :
    ∀ m, foldDigits (b + 2) ((digitsLEB b m).reverse) = m := by
  intro m
  induction m using Nat.strong_induction_on with
  | _ m ih =>
    match m with
    | 0 => simp [digitsLEB_zero, foldDigits]
    | n + 1 =>
      rw [digitsLEB_succ]
      have hdiv : (n + 1) / (b + 2) < n + 1 :=
        Nat.div_lt_self (show 0 < n + 1 by omega) (show 1 < b + 2 by omega)
      have := ih ((n + 1) / (b + 2)) hdiv
      simp only [List.reverse_cons, foldDigits, List.foldl_append,
        List.foldl_cons, List.foldl_nil] at this ⊢
      rw [this, Nat.mul_comm]
      exact Nat.div_add_mod (n + 1) (b + 2)

theorem foldDigits_repDigits (b : Nat) (n : Nat) :
    foldDigits (b + 2) (repDigits b n) = n := by
  unfold repDigits
  split
  · simp [foldDigits]; omega
  · exact fold_digitsLEB b n

theorem digitsLEB_len (b : Nat) :
    ∀ k m, m < (b + 2) ^ k → (digitsLEB b m).length ≤ k := by
  intro k
  induction k with
  | zero =>
    intro m hm
    simp at hm
    subst hm
    simp [digitsLEB_zero]
  | succ k ih =>
    intro m hm
    match m with
    | 0 => simp [digitsLEB_zero]
    | n + 1 =>
      rw [digitsLEB_succ]
      simp only [List.length_cons, Nat.add_le_add_iff_right]
      apply ih
      apply Nat.div_lt_of_lt_mul
      rw [pow_succ] at hm
      rw [Nat.mul_comm]
      exact hm

theorem repDigits_len (b k n : Nat) (hk : 1 ≤ k) (hn : n < (b + 2) ^ k) :
    (repDigits b n).length ≤ k := by
  unfold repDigits
  split
  · simpa using hk
  · simpa using digitsLEB_len b k n hn

theorem digitsLEB_lt (b : Nat) :
    ∀ m, ∀ d ∈ digitsLEB b m, d < b + 2 := by
  intro m
  induction m using Nat.strong_induction_on with
  | _ m ih =>
    match m with
    | 0 => simp [digitsLEB_zero]
    | n + 1 =>
      rw [digitsLEB_succ]
      intro d hd
      rcases List.mem_cons.mp hd with h | h
      · subst h; exact Nat.mod_lt _ (by omega)
      · exact ih ((n + 1) / (b + 2))
          (Nat.div_lt_self (show 0 < n + 1 by omega) (show 1 < b + 2 by omega)) d h

theorem repDigits_lt (b n : Nat) : ∀ d ∈ repDigits b n, d < b + 2 := by
  unfold repDigits
  split
  · simp
  · intro d hd
    exact digitsLEB_lt b n d (List.mem_reverse.mp hd)

theorem repDigits_ne_nil (b n : Nat) : repDigits b n ≠ [] := by
  unfold repDigits
  split
  · simp
  · simp only [ne_eq, List.reverse_eq_nil_iff]
    match n, ‹n ≠ 0› with
    | m + 1, _ => rw [digitsLEB_succ]; simp

theorem digitsLEB_ne_nil (b : Nat) {m : Nat} (hm : m ≠ 0) :
    digitsLEB b m ≠ [] := by
  match m, hm with
  | n + 1, _ => rw [digitsLEB_succ]; simp

theorem digitsLEB_getLast (b : Nat) :
    ∀ m, m ≠ 0 → ∀ d, (digitsLEB b m).getLast? = some d → d ≠ 0 := by
  intro m
  induction m using Nat.strong_induction_on with
  | _ m ih =>
    match m with
    | 0 => intro h; exact absurd rfl h
    | n + 1 =>
      intro _ d hd
      rw [digitsLEB_succ] at hd
      by_cases hq : (n + 1) / (b + 2) = 0
      · rw [hq] at hd
        simp [digitsLEB_zero] at hd
        have hlt : n + 1 < b + 2 := by
          by_contra hge
          push_neg at hge
          have h1 : 1 ≤ (n + 1) / (b + 2) :=
            (Nat.one_le_div_iff (by omega)).mpr hge
          omega
        rw [Nat.mod_eq_of_lt hlt] at hd
        omega
      · obtain ⟨x, t, hxt⟩ :=
          List.exists_cons_of_ne_nil (digitsLEB_ne_nil b hq)
        rw [hxt, List.getLast?_cons_cons, ← hxt] at hd
        exact ih ((n + 1) / (b + 2))
          (Nat.div_lt_self (show 0 < n + 1 by omega) (show 1 < b + 2 by omega)) hq d hd

/-! ## Reading digit strings back -/

theorem readDigits_head_none {r : Nat} {cs : Chars}
    (h : ∀ c, cs.head? = some c → charToDigit r c = none) :
    readDigits r cs = ([], cs) := by
  cases cs with
  | nil => rfl
  | cons c rest => simp [readDigits, h c rfl]

theorem readDigits_map {r : Nat} (ds : List Nat) (rest : Chars)
    (hds : ∀ d ∈ ds, charToDigit r (hexDigitChar d) = some d)
    (hrest : ∀ c, rest.head? = some c → charToDigit r c = none) :
    readDigits r (ds.map hexDigitChar ++ rest) = (ds, rest) := by
  induction ds with
  | nil => exact readDigits_head_none hrest
  | cons d ds ih =>
    have hd0 := hds d (List.mem_cons_self d ds)
    simp only [List.map_cons, List.cons_append, readDigits, hd0,
      List.append_eq]
    rw [ih (fun x hx => hds x (List.mem_cons_of_mem d hx))]

theorem readDigits_append {r : Nat} (l X : Chars)
    (hX : ∀ c, X.head? = some c → charToDigit r c = none) :
    ∃ l1 l2, l = l1 ++ l2 ∧ (readDigits r (l ++ X)).2 = l2 ++ X ∧
      (∀ c, l2.head? = some c → charToDigit r c = none) := by
  induction l with
  | nil =>
    refine ⟨[], [], rfl, ?_, by simp⟩
    simp [readDigits_head_none hX]
  | cons c l ih =>
    rcases hc : charToDigit r c with _ | d
    · refine ⟨[], c :: l, rfl, by simp [readDigits, hc], ?_⟩
      intro x hx
      simp only [List.head?_cons, Option.some.injEq] at hx
      rw [← hx]
      exact hc
    · obtain ⟨l1, l2, heq, hrest, hhead⟩ := ih
      refine ⟨c :: l1, l2, by rw [heq]; rfl, ?_, hhead⟩
      simp only [List.cons_append, readDigits, hc]
      exact hrest

theorem readNumber_eq (r : Nat) (maxD : Option Nat) (az : Bool)
    (bound : Nat) (cs : Chars) :
    readNumber r maxD az bound cs =
      if (readDigits r cs).1.isEmpty then none
      else if tooManyDigits maxD (readDigits r cs).1.length then none
      else if bound ≤ foldDigits r (readDigits r cs).1 then none
      else if !az && hasLeadingZero cs &&
        decide (1 < (readDigits r cs).1.length) then none
      else some (foldDigits r (readDigits r cs).1, (readDigits r cs).2) :=
  rfl

theorem readNumber_rest {r : Nat} {maxD : Option Nat} {az : Bool}
    {bound : Nat} {cs : Chars} {v : Nat} {rest : Chars}
    (h : readNumber r maxD az bound cs = some (v, rest)) :
    rest = (readDigits r cs).2 ∧ v < bound := by
  rw [readNumber_eq] at h
  split at h
  · exact absurd h (by simp)
  · split at h
    · exact absurd h (by simp)
    · split at h
      · exact absurd h (by simp)
      · split at h
        · exact absurd h (by simp)
        · rw [Option.some.injEq, Prod.mk.injEq] at h
          obtain ⟨h1, h2⟩ := h
          refine ⟨h2.symm, ?_⟩
          rw [← h1]
          omega

theorem readNumber_head_none {r : Nat} {maxD : Option Nat} {az : Bool}
    {bound : Nat} {cs : Chars}
    (h : ∀ c, cs.head? = some c → charToDigit r c = none) :
    readNumber r maxD az bound cs = none := by
  unfold readNumber
  rw [readDigits_head_none h]
  rfl

theorem readNumber_rep {r b : Nat} (hr : r = b + 2) (hb16 : b + 2 ≤ 16)
    (hd : ∀ d, d < b + 2 → charToDigit r (hexDigitChar d) = some d)
    {n bound : Nat} {maxD : Option Nat} {az : Bool} {rest : Chars}
    (hb : n < bound)
    (hlen : ∀ m, maxD = some m → (repDigits b n).length ≤ m)
    (hrest : ∀ c, rest.head? = some c → charToDigit r c = none) :
    readNumber r maxD az bound ((repDigits b n).map hexDigitChar ++ rest) =
      some (n, rest) := by
  have hmap := @readDigits_map r (repDigits b n) rest
    (fun d hdm => hd d (repDigits_lt b n d hdm)) hrest
  rw [readNumber_eq, hmap]
  dsimp only
  have hfold : foldDigits r (repDigits b n) = n := by
    rw [hr]; exact foldDigits_repDigits b n
  have hne : (repDigits b n).isEmpty = false := by
    rcases hrep : repDigits b n with _ | ⟨x, t⟩
    · exact absurd hrep (repDigits_ne_nil b n)
    · simp [hrep]
  rw [hne]
  simp only [Bool.false_eq_true, if_false]
  have htm : tooManyDigits maxD (repDigits b n).length = false := by
    rcases maxD with _ | m
    · rfl
    · simp only [tooManyDigits, decide_eq_false_iff_not, not_lt]
      exact hlen m rfl
  rw [htm]
  simp only [Bool.false_eq_true, if_false, hfold]
  rw [if_neg (by omega)]
  have hzero : (!az && hasLeadingZero
      ((repDigits b n).map hexDigitChar ++ rest) &&
      decide (1 < (repDigits b n).length)) = false := by
    by_cases hn : n = 0
    · have hrep01 : repDigits b n = [0] := by rw [hn]; rfl
      rw [hrep01]
      simp
    · have hfirst : ∀ c, ((repDigits b n).map hexDigitChar ++ rest).head? =
          some c → c ≠ '0' := by
        intro c hc
        rcases hrep : repDigits b n with _ | ⟨x, t⟩
        · exact absurd hrep (repDigits_ne_nil b n)
        · rw [hrep] at hc
          simp at hc
          have hx0 : x ≠ 0 := by
            have hlast : (digitsLEB b n).getLast? = some x := by
              unfold repDigits at hrep
              rw [if_neg hn] at hrep
              rw [← List.head?_reverse, hrep]
              rfl
            exact digitsLEB_getLast b n hn x hlast
          have hxlt : x < 16 := by
            have := repDigits_lt b n x
              (by rw [hrep]; exact List.mem_cons_self x t)
            omega
          rw [← hc]
          intro hcon
          exact hx0 ((hexDigitChar_eq_zeroChar ⟨x, hxlt⟩).mp hcon)
      rcases hh : ((repDigits b n).map hexDigitChar ++ rest).head? with _ | c
      · simp [hasLeadingZero, hh]
      · have hne0 := hfirst c hh
        simp [hasLeadingZero, hh, hne0]
  rw [hzero]
  rfl

theorem expectChar_cons_self (c : Char) (rest : Chars) :
    expectChar c (c :: rest) = some rest := by
  simp [expectChar]

theorem expectChar_cons_ne {c x : Char} (rest : Chars) (h : x ≠ c) :
    expectChar c (x :: rest) = none := by
  simp [expectChar, h]

/-! ## Blocking characters -/


theorem noDigit_nil (r : Nat) : noDigit r [] := by
  intro c hc
  simp at hc

theorem noDigit_cons {r : Nat} {x : Char} (rest : Chars)
    (h : charToDigit r x = none) : noDigit r (x :: rest) := by
  intro c hc
  simp at hc
  rw [← hc]
  exact h

theorem ctd_colon10 : charToDigit 10 ':' = none := by decide

theorem ctd_colon16 : charToDigit 16 ':' = none := by decide

theorem ctd_dot10 : charToDigit 10 '.' = none := by decide

theorem ctd_dot16 : charToDigit 16 '.' = none := by decide

theorem ctd_rbracket10 : charToDigit 10 ']' = none := by decide

theorem ctd_rbracket16 : charToDigit 16 ']' = none := by decide

theorem ctd_percent10 : charToDigit 10 '%' = none := by decide

theorem ctd_percent16 : charToDigit 16 '%' = none := by decide

theorem ctd_lbracket10 : charToDigit 10 '[' = none := by decide

/-! ## IPv4 parsing of rendered addresses -/

theorem readOctet_rep {n : Nat} (hn : n < 256) {rest : Chars}
    (hrest : noDigit 10 rest) :
    readOctet (decChars n ++ rest) = some (n, rest) := by
  unfold readOctet decChars
  apply readNumber_rep rfl (by omega)
    (fun d hd => charToDigit_hexDigitChar10 ⟨d, by omega⟩) hn
  · intro m hm
    injection hm with hm
    rw [← hm]
    exact repDigits_len 8 3 n (by omega) (by norm_num; omega)
  · exact hrest

theorem readPortNum_rep {n bound : Nat} (hn : n < bound) {rest : Chars}
    (hrest : noDigit 10 rest) :
    readNumber 10 none true bound (decChars n ++ rest) = some (n, rest) := by
  unfold decChars
  apply readNumber_rep rfl (by omega)
    (fun d hd => charToDigit_hexDigitChar10 ⟨d, by omega⟩) hn
  · intro m hm
    exact absurd hm (by simp)
  · exact hrest

theorem readHexGroup_rep {n : Nat} (hn : n < 65536) {rest : Chars}
    (hrest : noDigit 16 rest) :
    readHexGroup (hexChars n ++ rest) = some (n, rest) := by
  unfold readHexGroup hexChars
  apply readNumber_rep rfl (by omega)
    (fun d hd => charToDigit_hexDigitChar16 ⟨d, by omega⟩) hn
  · intro m hm
    injection hm with hm
    rw [← hm]
    exact repDigits_len 14 4 n (by omega) (by norm_num; omega)
  · exact hrest

theorem readIpv4_rep (ip : Ipv4) {rest : Chars}
    (ha : ip.a < 256) (hb : ip.b < 256) (hc : ip.c < 256) (hd : ip.d < 256)
    (hrest : noDigit 10 rest) :
    readIpv4 (ipv4Chars ip ++ rest) = some (ip, rest) := by
  have harr : ipv4Chars ip ++ rest =
      decChars ip.a ++ ('.' :: (decChars ip.b ++ ('.' ::
        (decChars ip.c ++ ('.' :: (decChars ip.d ++ rest)))))) := by
    simp [ipv4Chars, List.append_assoc]
  rw [harr]
  have h1 := @readOctet_rep ip.a ha ('.' :: (decChars ip.b ++ ('.' ::
    (decChars ip.c ++ ('.' :: (decChars ip.d ++ rest))))))
    (noDigit_cons _ ctd_dot10)
  have h2 := @readOctet_rep ip.b hb ('.' ::
    (decChars ip.c ++ ('.' :: (decChars ip.d ++ rest))))
    (noDigit_cons _ ctd_dot10)
  have h3 := @readOctet_rep ip.c hc ('.' :: (decChars ip.d ++ rest))
    (noDigit_cons _ ctd_dot10)
  have h4 := @readOctet_rep ip.d hd rest hrest
  simp [readIpv4, h1, h2, h3, h4, expectChar_cons_self]

/-! ## IPv4 parse failures -/

theorem readIpv4_none_no_dot {cs : Chars}
    (h : ∀ c, (readDigits 10 cs).2.head? = some c → c ≠ '.') :
    readIpv4 cs = none := by
  unfold readIpv4
  rcases hoct : readOctet cs with _ | ⟨v, r⟩
  · rfl
  · have hr : r = (readDigits 10 cs).2 := (readNumber_rest hoct).1
    have hdot : expectChar '.' r = none := by
      rcases r with _ | ⟨x, t⟩
      · rfl
      · exact expectChar_cons_ne t (h x (by rw [← hr]; rfl))
    simp [hoct, hdot]

theorem readIpv4_head_none {cs : Chars} (h : noDigit 10 cs) :
    readIpv4 cs = none := by
  have hoct : readOctet cs = none := readNumber_head_none h
  simp [readIpv4, hoct]

theorem readIpv4_hexChars (g : Nat) {X : Chars}
    (hX : noDigit 10 X) (hdot : X.head? ≠ some '.') :
    readIpv4 (hexChars g ++ X) = none := by
  apply readIpv4_none_no_dot
  obtain ⟨l1, l2, hsplit, hrest, hhead⟩ :=
    @readDigits_append 10 (hexChars g) X hX
  rw [hrest]
  intro c hc hcdot
  rcases l2 with _ | ⟨x, t⟩
  · simp at hc
    rw [hcdot] at hc
    exact hdot hc
  · simp at hc
    rw [hcdot] at hc
    have hxmem : x ∈ hexChars g := by
      rw [hsplit]
      exact List.mem_append_right l1 (List.mem_cons_self x t)
    obtain ⟨d, hdm, hdchar⟩ := List.mem_map.mp hxmem
    have hdlt : d < 16 := by
      have := repDigits_lt 14 g d hdm
      omega
    rw [hc] at hdchar
    exact hexDigitChar_ne_dot ⟨d, hdlt⟩ hdchar

/-! ## IPv6 group sequences -/

theorem noDigit_of16 {rest : Chars} (h : noDigit 16 rest) :
    noDigit 10 rest :=
  fun c hc => charToDigit16_none_to10 (h c hc)


theorem blockedGroups_nil : blockedGroups [] :=
  ⟨noDigit_nil 16, by intro c hc; simp at hc, by intro r hr; cases hr⟩

theorem blockedGroups_rbracket (t : Chars) : blockedGroups (']' :: t) := by
  refine ⟨noDigit_cons t ctd_rbracket16, ?_, ?_⟩
  · intro c hc
    simp at hc
    rw [← hc]
    decide
  · intro r hr
    exact absurd (List.head_eq_of_cons_eq hr) (by decide)

theorem blockedGroups_percent (t : Chars) : blockedGroups ('%' :: t) := by
  refine ⟨noDigit_cons t ctd_percent16, ?_, ?_⟩
  · intro c hc
    simp at hc
    rw [← hc]
    decide
  · intro r hr
    exact absurd (List.head_eq_of_cons_eq hr) (by decide)

theorem blockedGroups_dcolon (t : Chars) : blockedGroups (':' :: ':' :: t) := by
  refine ⟨noDigit_cons _ ctd_colon16, ?_, ?_⟩
  · intro c hc
    simp at hc
    rw [← hc]
    decide
  · intro r hr
    injection hr with _ hr2
    rw [← hr2]
    refine ⟨noDigit_cons t ctd_colon16, ?_⟩
    intro c hc
    simp at hc
    rw [← hc]
    decide

theorem sep_ipv4_blocked {i : Nat} (hi : 1 ≤ i) {rest : Chars}
    (hb : blockedGroups rest) :
    readSeparator ':' i readIpv4 rest = none := by
  unfold readSeparator
  rw [if_neg (by omega)]
  rcases rest with _ | ⟨x, t⟩
  · rfl
  · by_cases hx : x = ':'
    · subst hx
      rw [expectChar_cons_self]
      exact readIpv4_head_none (noDigit_of16 (hb.2.2 t rfl).1)
    · rw [expectChar_cons_ne t hx]

theorem sep_hex_blocked {i : Nat} (hi : 1 ≤ i) {rest : Chars}
    (hb : blockedGroups rest) :
    readSeparator ':' i readHexGroup rest = none := by
  unfold readSeparator
  rw [if_neg (by omega)]
  rcases rest with _ | ⟨x, t⟩
  · rfl
  · by_cases hx : x = ':'
    · subst hx
      rw [expectChar_cons_self]
      exact readNumber_head_none (hb.2.2 t rfl).1
    · rw [expectChar_cons_ne t hx]

theorem readGroupsGo_stop {rem i : Nat} (hi : 1 ≤ i) {rest : Chars}
    (hb : blockedGroups rest) :
    readGroupsGo rem i rest = ([], false, rest) := by
  rcases rem with _ | rem
  · rfl
  · rw [readGroupsGo]
    rw [sep_hex_blocked hi hb]
    rcases Nat.lt_or_ge rem 1 with h1 | h1
    · rw [if_neg (by omega)]
    · rw [if_pos h1, sep_ipv4_blocked hi hb]

/-- The run after the current group: either more groups (headed by a
colon and a hex digit group) or the blocked terminator. -/
theorem colonX_props (gs : List Nat) {rest : Chars}
    (hb : blockedGroups rest) :
    noDigit 16 (colonGroups gs ++ rest) ∧
      (colonGroups gs ++ rest).head? ≠ some '.' := by
  rcases gs with _ | ⟨g, gs⟩
  · refine ⟨hb.1, ?_⟩
    intro hdot
    exact hb.2.1 '.' hdot rfl
  · have harr : colonGroups (g :: gs) ++ rest =
        ':' :: (hexChars g ++ (colonGroups gs ++ rest)) := by
      simp [colonGroups, List.append_assoc]
    rw [harr]
    exact ⟨noDigit_cons _ ctd_colon16, by simp⟩

theorem readGroupsGo_colon (gs : List Nat) :
    ∀ (rem i : Nat) (rest : Chars), gs.length ≤ rem →
    (∀ g ∈ gs, g < 65536) → 1 ≤ i → blockedGroups rest →
    readGroupsGo rem i (colonGroups gs ++ rest) = (gs, false, rest) := by
  induction gs with
  | nil =>
    intro rem i rest _ _ hi hb
    rw [show colonGroups [] ++ rest = rest from rfl]
    exact readGroupsGo_stop hi hb
  | cons g gs ih =>
    intro rem i rest hlen hbound hi hb
    rcases rem with _ | rem
    · simp at hlen
    · have harr : colonGroups (g :: gs) ++ rest =
          ':' :: (hexChars g ++ (colonGroups gs ++ rest)) := by
        simp [colonGroups, List.append_assoc]
      rw [harr, readGroupsGo]
      obtain ⟨hX16, hXdot⟩ := colonX_props gs hb
      have hipv4 : (if 1 ≤ rem then readSeparator ':' i readIpv4
          (':' :: (hexChars g ++ (colonGroups gs ++ rest))) else none)
          = none := by
        rcases Nat.lt_or_ge rem 1 with h1 | h1
        · rw [if_neg (by omega)]
        · rw [if_pos h1]
          unfold readSeparator
          rw [if_neg (by omega), expectChar_cons_self]
          exact readIpv4_hexChars g (noDigit_of16 hX16) hXdot
      rw [hipv4]
      have hhex : readSeparator ':' i readHexGroup
          (':' :: (hexChars g ++ (colonGroups gs ++ rest))) =
          some (g, colonGroups gs ++ rest) := by
        unfold readSeparator
        rw [if_neg (by omega), expectChar_cons_self]
        exact readHexGroup_rep (hbound g (List.mem_cons_self g gs)) hX16
      rw [hhex]
      have hrec := ih rem (i + 1) rest (by simpa using hlen)
        (fun x hx => hbound x (List.mem_cons_of_mem g hx)) (by omega) hb
      show (g :: (readGroupsGo rem (i + 1) (colonGroups gs ++ rest)).1,
        (readGroupsGo rem (i + 1) (colonGroups gs ++ rest)).2.1,
        (readGroupsGo rem (i + 1) (colonGroups gs ++ rest)).2.2) =
        (g :: gs, false, rest)
      rw [hrec]

theorem readGroupsGo_zero (gs : List Nat) (rem : Nat) (rest : Chars)
    (hlen : gs.length ≤ rem) (hbound : ∀ g ∈ gs, g < 65536)
    (hb : blockedGroups rest) :
    readGroupsGo rem 0 (groupsChars gs ++ rest) = (gs, false, rest) := by
  rcases gs with _ | ⟨g, gs⟩
  · rw [show groupsChars [] ++ rest = rest from rfl]
    rcases rem with _ | rem
    · rfl
    · rw [readGroupsGo]
      have hhex : readSeparator ':' 0 readHexGroup rest = none := by
        unfold readSeparator
        rw [if_pos rfl]
        exact readNumber_head_none hb.1
      rw [hhex]
      rcases Nat.lt_or_ge rem 1 with h1 | h1
      · rw [if_neg (by omega)]
      · rw [if_pos h1]
        unfold readSeparator
        rw [if_pos rfl]
        rw [readIpv4_head_none (noDigit_of16 hb.1)]
  · rcases rem with _ | rem
    · simp at hlen
    · have harr : groupsChars (g :: gs) ++ rest =
          hexChars g ++ (colonGroups gs ++ rest) := by
        simp [groupsChars, List.append_assoc]
      rw [harr, readGroupsGo]
      obtain ⟨hX16, hXdot⟩ := colonX_props gs hb
      have hipv4 : (if 1 ≤ rem then readSeparator ':' 0 readIpv4
          (hexChars g ++ (colonGroups gs ++ rest)) else none) = none := by
        rcases Nat.lt_or_ge rem 1 with h1 | h1
        · rw [if_neg (by omega)]
        · rw [if_pos h1]
          unfold readSeparator
          rw [if_pos rfl]
          exact readIpv4_hexChars g (noDigit_of16 hX16) hXdot
      rw [hipv4]
      have hhex : readSeparator ':' 0 readHexGroup
          (hexChars g ++ (colonGroups gs ++ rest)) =
          some (g, colonGroups gs ++ rest) := by
        unfold readSeparator
        rw [if_pos rfl]
        exact readHexGroup_rep (hbound g (List.mem_cons_self g gs)) hX16
      rw [hhex]
      have hrec := readGroupsGo_colon gs rem 1 rest (by simpa using hlen)
        (fun x hx => hbound x (List.mem_cons_of_mem g hx)) (by omega) hb
      show (g :: (readGroupsGo rem (0 + 1) (colonGroups gs ++ rest)).1,
        (readGroupsGo rem (0 + 1) (colonGroups gs ++ rest)).2.1,
        (readGroupsGo rem (0 + 1) (colonGroups gs ++ rest)).2.2) =
        (g :: gs, false, rest)
      rw [show 0 + 1 = 1 from rfl, hrec]

/-! ## The zero-run found by the IPv6 display is a run of zeros -/


theorem zeroRunGo_spec (F : List Nat) :
    ∀ (rest : List Nat) (i : Nat) (cur lon : Nat × Nat),
    rest = F.drop i →
    (cur.2 ≠ 0 → cur.1 + cur.2 = i ∧ AllZero F cur.1 cur.2) →
    (lon.2 ≠ 0 → AllZero F lon.1 lon.2) →
    ((zeroRunGo rest i cur lon).2 ≠ 0 →
      AllZero F (zeroRunGo rest i cur lon).1 (zeroRunGo rest i cur lon).2) := by
  intro rest
  induction rest with
  | nil =>
    intro i cur lon _ _ hlon
    simpa [zeroRunGo] using hlon
  | cons s rest ih =>
    intro i cur lon hdrop hcur hlon
    have hFi : F[i]? = some s := by
      have h0 := List.getElem?_drop F i 0
      rw [← hdrop] at h0
      simpa using h0.symm
    have hdrop' : rest = F.drop (i + 1) := by
      have ht : (F.drop i).tail = F.drop (i + 1) := List.tail_drop F i
      rw [← hdrop] at ht
      simpa using ht
    by_cases hs : s = 0
    · subst hs
      have hCinv : (if cur.2 = 0 then (i, 1)
            else (cur.1, cur.2 + 1)).2 ≠ 0 →
          (if cur.2 = 0 then (i, 1) else (cur.1, cur.2 + 1)).1 +
            (if cur.2 = 0 then (i, 1) else (cur.1, cur.2 + 1)).2 = i + 1 ∧
          AllZero F (if cur.2 = 0 then (i, 1) else (cur.1, cur.2 + 1)).1
            (if cur.2 = 0 then (i, 1) else (cur.1, cur.2 + 1)).2 := by
        by_cases hc0 : cur.2 = 0
        · rw [if_pos hc0]
          intro _
          refine ⟨rfl, ?_⟩
          intro j hj
          have hj0 : j = 0 := by
            have hj1 : j < 1 := hj
            omega
          subst hj0
          simpa using hFi
        · rw [if_neg hc0]
          obtain ⟨hsum, hz⟩ := hcur hc0
          intro _
          constructor
          · show cur.1 + (cur.2 + 1) = i + 1
            omega
          · intro j hj
            have hj' : j < cur.2 + 1 := hj
            rcases Nat.lt_or_ge j cur.2 with h | h
            · exact hz j h
            · have hje : j = cur.2 := by omega
              subst hje
              show F[cur.1 + cur.2]? = some 0
              rw [hsum]
              exact hFi
      have hLinv : (if (if cur.2 = 0 then (i, 1)
              else (cur.1, cur.2 + 1)).2 > lon.2
            then (if cur.2 = 0 then (i, 1) else (cur.1, cur.2 + 1))
            else lon).2 ≠ 0 →
          AllZero F (if (if cur.2 = 0 then (i, 1)
              else (cur.1, cur.2 + 1)).2 > lon.2
            then (if cur.2 = 0 then (i, 1) else (cur.1, cur.2 + 1))
            else lon).1
            (if (if cur.2 = 0 then (i, 1)
              else (cur.1, cur.2 + 1)).2 > lon.2
            then (if cur.2 = 0 then (i, 1) else (cur.1, cur.2 + 1))
            else lon).2 := by
        by_cases hgt : (if cur.2 = 0 then (i, 1)
            else (cur.1, cur.2 + 1)).2 > lon.2
        · rw [if_pos hgt]
          intro h
          exact (hCinv h).2
        · rw [if_neg hgt]
          exact hlon
      rw [zeroRunGo, if_pos rfl]
      exact ih (i + 1) _ _ hdrop' hCinv hLinv
    · rw [zeroRunGo, if_neg hs]
      exact ih (i + 1) (0, 0) lon hdrop' (fun h => absurd rfl h) hlon

theorem zeroRun_spec (segs : List Nat) :
    (zeroRun segs).2 ≠ 0 →
      AllZero segs (zeroRun segs).1 (zeroRun segs).2 := by
  apply zeroRunGo_spec segs segs 0 (0, 0) (0, 0) (by simp)
  · intro h; exact absurd rfl h
  · intro h; exact absurd rfl h

theorem AllZero_bound {F : List Nat} {s l : Nat}
    (hz : AllZero F s l) (hl : l ≠ 0) : s + l ≤ F.length := by
  have h0 := hz (l - 1) (by omega)
  have hlt : s + (l - 1) < F.length := by
    by_contra hge
    push_neg at hge
    rw [List.getElem?_eq_none hge] at h0
    exact absurd h0 (by simp)
  omega

/-- Splitting a list around a run of zeros. -/
theorem eq_take_replicate_drop {F : List Nat} {s l : Nat}
    (hz : AllZero F s l) (hb : s + l ≤ F.length) :
    F = F.take s ++ List.replicate l 0 ++ F.drop (s + l) := by
  have hmid : (F.drop s).take l = List.replicate l 0 := by
    apply List.ext_getElem?
    intro i
    rcases Nat.lt_or_ge i l with hil | hil
    · have h1 : ((F.drop s).take l)[i]? = F[s + i]? := by
        rw [List.getElem?_take_of_lt hil, List.getElem?_drop]
      rw [h1, hz i hil, List.getElem?_replicate, if_pos hil]
    · have h1 : ((F.drop s).take l)[i]? = none :=
        List.getElem?_eq_none (by
          rw [List.length_take, List.length_drop]
          omega)
      have h2 : (List.replicate l (0 : Nat))[i]? = none :=
        List.getElem?_eq_none (by simpa using hil)
      rw [h1, h2]
  calc F = F.take s ++ F.drop s := (List.take_append_drop s F).symm
    _ = F.take s ++ ((F.drop s).take l ++ (F.drop s).drop l) := by
        rw [List.take_append_drop l (F.drop s), List.take_append_drop s F]
    _ = F.take s ++ (List.replicate l 0 ++ F.drop (s + l)) := by
        rw [hmid, List.drop_drop]
    _ = F.take s ++ List.replicate l 0 ++ F.drop (s + l) :=
        (List.append_assoc _ _ _).symm

/-! ## Round trip: parsing a rendered socket address -/


theorem v4mapped_inv {segs : List Nat} {ip : Ipv4}
    (h : v4mapped segs = some ip) :
    ∃ g h2, segs = [0, 0, 0, 0, 0, 65535, g, h2] ∧
      ip = ⟨g / 256, g % 256, h2 / 256, h2 % 256⟩ := by
  unfold v4mapped at h
  split at h
  · next g h2 =>
    exact ⟨g, h2, rfl, (Option.some.injEq .. ▸ h).symm⟩
  · exact absurd h (by simp)

theorem hexChars_ffff : hexChars 65535 = ['f', 'f', 'f', 'f'] := by decide

theorem readGroupsGo_mapped (g h : Nat) (hg : g < 65536) (hh : h < 65536)
    {rest : Chars} (hb : blockedGroups rest) :
    readGroupsGo 7 0 (hexChars 65535 ++ (':' ::
      (ipv4Chars ⟨g / 256, g % 256, h / 256, h % 256⟩ ++ rest))) =
      ([65535, g, h], true, rest) := by
  have hrec : readGroupsGo 6 1 (':' ::
      (ipv4Chars ⟨g / 256, g % 256, h / 256, h % 256⟩ ++ rest)) =
      ([g, h], true, rest) := by
    rw [show (6 : Nat) = 5 + 1 from rfl, readGroupsGo]
    have hipc : readSeparator ':' 1 readIpv4 (':' ::
        (ipv4Chars ⟨g / 256, g % 256, h / 256, h % 256⟩ ++ rest)) =
        some (⟨g / 256, g % 256, h / 256, h % 256⟩, rest) := by
      unfold readSeparator
      rw [if_neg (by omega), expectChar_cons_self]
      exact readIpv4_rep _ (show g / 256 < 256 by omega)
        (show g % 256 < 256 by omega) (show h / 256 < 256 by omega)
        (show h % 256 < 256 by omega) (noDigit_of16 hb.1)
    rw [if_pos (by omega), hipc]
    show ([g / 256 * 256 + g % 256, h / 256 * 256 + h % 256], true, rest) =
      ([g, h], true, rest)
    have e1 : g / 256 * 256 + g % 256 = g := by omega
    have e2 : h / 256 * 256 + h % 256 = h := by omega
    rw [e1, e2]
  rw [show (7 : Nat) = 6 + 1 from rfl, readGroupsGo]
  have hipv4 : readSeparator ':' 0 readIpv4 (hexChars 65535 ++ (':' ::
      (ipv4Chars ⟨g / 256, g % 256, h / 256, h % 256⟩ ++ rest))) = none := by
    unfold readSeparator
    rw [if_pos rfl]
    exact readIpv4_hexChars 65535 (noDigit_cons _ ctd_colon10) (by simp)
  have hhex : readSeparator ':' 0 readHexGroup (hexChars 65535 ++ (':' ::
      (ipv4Chars ⟨g / 256, g % 256, h / 256, h % 256⟩ ++ rest))) =
      some (65535, ':' ::
        (ipv4Chars ⟨g / 256, g % 256, h / 256, h % 256⟩ ++ rest)) := by
    unfold readSeparator
    rw [if_pos rfl]
    exact readHexGroup_rep (by omega) (noDigit_cons _ ctd_colon16)
  rw [if_pos (by omega), hipv4, hhex]
  show (65535 :: (readGroupsGo 6 1 (':' ::
      (ipv4Chars ⟨g / 256, g % 256, h / 256, h % 256⟩ ++ rest))).1,
    (readGroupsGo 6 1 (':' ::
      (ipv4Chars ⟨g / 256, g % 256, h / 256, h % 256⟩ ++ rest))).2.1,
    (readGroupsGo 6 1 (':' ::
      (ipv4Chars ⟨g / 256, g % 256, h / 256, h % 256⟩ ++ rest))).2.2) =
    ([65535, g, h], true, rest)
  rw [hrec]

theorem readIpv6_eq (cs : Chars) :
    readIpv6 cs =
      if (readGroups 8 cs).1.length = 8 then
        some ((readGroups 8 cs).1, (readGroups 8 cs).2.2)
      else if (readGroups 8 cs).2.1 then none
      else
        match expectChar ':' (readGroups 8 cs).2.2 with
        | none => none
        | some r2 =>
          match expectChar ':' r2 with
          | none => none
          | some r3 =>
            if (readGroupsGo (8 - ((readGroups 8 cs).1.length + 1)) 0
                r3).2.2.head? = some ':' then none
            else
              some ((readGroups 8 cs).1 ++
                List.replicate (8 - (readGroups 8 cs).1.length -
                  (readGroupsGo (8 - ((readGroups 8 cs).1.length + 1)) 0
                    r3).1.length) 0 ++
                (readGroupsGo (8 - ((readGroups 8 cs).1.length + 1)) 0
                  r3).1,
                (readGroupsGo (8 - ((readGroups 8 cs).1.length + 1)) 0
                  r3).2.2) :=
  rfl

theorem readIpv6_rep (segs : List Nat) (hlen8 : segs.length = 8)
    (hbound : ∀ s ∈ segs, s < 65536) {rest : Chars}
    (hb : blockedGroups rest) (hnc : rest.head? ≠ some ':') :
    readIpv6 (ipv6Chars segs ++ rest) = some (segs, rest) := by
  rcases hmap : v4mapped segs with _ | ip
  · -- no IPv4-mapped special form: zero-run compression or plain groups
    have hdisp : ipv6Chars segs =
        if 1 < (zeroRun segs).2 then
          groupsChars (segs.take (zeroRun segs).1) ++ ':' :: ':' ::
            groupsChars (segs.drop ((zeroRun segs).1 + (zeroRun segs).2))
        else groupsChars segs := by
      unfold ipv6Chars
      rw [hmap]
    by_cases hzr : 1 < (zeroRun segs).2
    · -- compressed display
      rw [hdisp, if_pos hzr]
      have hz := zeroRun_spec segs (by omega)
      have hzb : (zeroRun segs).1 + (zeroRun segs).2 ≤ 8 := by
        have := AllZero_bound hz (by omega)
        omega
      have harr : (groupsChars (segs.take (zeroRun segs).1) ++ ':' :: ':' ::
          groupsChars (segs.drop ((zeroRun segs).1 + (zeroRun segs).2)))
            ++ rest =
          groupsChars (segs.take (zeroRun segs).1) ++ (':' :: ':' ::
            (groupsChars (segs.drop ((zeroRun segs).1 + (zeroRun segs).2))
              ++ rest)) := by
        simp [List.append_assoc]
      rw [harr, readIpv6_eq]
      have h0 : readGroups 8 (groupsChars (segs.take (zeroRun segs).1) ++
          (':' :: ':' ::
            (groupsChars (segs.drop ((zeroRun segs).1 + (zeroRun segs).2))
              ++ rest))) =
          (segs.take (zeroRun segs).1, false, ':' :: ':' ::
            (groupsChars (segs.drop ((zeroRun segs).1 + (zeroRun segs).2))
              ++ rest)) := by
        apply readGroupsGo_zero
        · rw [List.length_take]
          omega
        · intro s hs
          exact hbound s (List.take_subset _ _ hs)
        · exact blockedGroups_dcolon _
      rw [h0]
      dsimp only
      have hTK : (segs.take (zeroRun segs).1).length = (zeroRun segs).1 := by
        rw [List.length_take]
        omega
      rw [hTK]
      rw [if_neg (by omega)]
      rw [if_neg (by simp)]
      simp only [expectChar_cons_self]
      have ht : readGroupsGo (8 - ((zeroRun segs).1 + 1)) 0
          (groupsChars (segs.drop ((zeroRun segs).1 + (zeroRun segs).2))
            ++ rest) =
          (segs.drop ((zeroRun segs).1 + (zeroRun segs).2), false, rest) := by
        apply readGroupsGo_zero
        · rw [List.length_drop]
          omega
        · intro s hs
          exact hbound s (List.drop_subset _ _ hs)
        · exact hb
      rw [ht]
      dsimp only
      rw [if_neg hnc]
      have hcount : 8 - (zeroRun segs).1 -
          (segs.drop ((zeroRun segs).1 + (zeroRun segs).2)).length =
          (zeroRun segs).2 := by
        rw [List.length_drop, hlen8]
        omega
      rw [hcount]
      have hdec := eq_take_replicate_drop hz (by omega)
      rw [← hdec]
    · -- no compression: all eight groups are printed
      rw [hdisp, if_neg hzr, readIpv6_eq]
      have h0 : readGroups 8 (groupsChars segs ++ rest) =
          (segs, false, rest) :=
        readGroupsGo_zero segs 8 rest (by omega) hbound hb
      rw [h0]
      dsimp only
      rw [if_pos hlen8]
  · -- IPv4-mapped form `::ffff:a.b.c.d`
    obtain ⟨g, h2, hsegs, hip⟩ := v4mapped_inv hmap
    have hg : g < 65536 := hbound g (by rw [hsegs]; simp)
    have hh : h2 < 65536 := hbound h2 (by rw [hsegs]; simp)
    have harr : ipv6Chars segs ++ rest =
        ':' :: ':' :: (hexChars 65535 ++
          (':' :: (ipv4Chars ip ++ rest))) := by
      unfold ipv6Chars
      rw [hmap, hexChars_ffff]
      simp
    rw [harr, readIpv6_eq]
    have h0 : readGroups 8 (':' :: ':' :: (hexChars 65535 ++
        (':' :: (ipv4Chars ip ++ rest)))) =
        ([], false, ':' :: ':' :: (hexChars 65535 ++
          (':' :: (ipv4Chars ip ++ rest)))) :=
      readGroupsGo_zero [] 8 _ (by simp) (by simp) (blockedGroups_dcolon _)
    rw [h0]
    dsimp only
    rw [if_neg (by simp)]
    rw [if_neg (by simp)]
    simp only [expectChar_cons_self]
    subst hip
    have ht := readGroupsGo_mapped g h2 hg hh hb
    rw [show (8 - (List.length ([] : List Nat) + 1)) = 7 by simp, ht]
    dsimp only
    rw [if_neg hnc]
    rw [hsegs]
    rfl

theorem roundtrip_sock (a : SockAddr) (hwf : a.wf) :
    parseSockChars a.chars = some a := by
  rcases a with ⟨ip, p⟩ | ⟨segs, p, scope⟩
  · obtain ⟨ha, hb, hc, hd, hp⟩ := hwf
    have h1 : readIpv4 (ipv4Chars ip ++ ':' :: decChars p) =
        some (ip, ':' :: decChars p) :=
      readIpv4_rep ip ha hb hc hd (noDigit_cons _ ctd_colon10)
    have h2 : readNumber 10 none true 65536 (decChars p ++ []) =
        some (p, []) := readPortNum_rep hp (noDigit_nil 10)
    rw [List.append_nil] at h2
    show parseSockChars (ipv4Chars ip ++ ':' :: decChars p) = _
    unfold parseSockChars readSocketAddr readSocketAddrV4 readPort
    simp [h1, h2, expectChar_cons_self]
  · obtain ⟨hlen8, hbound, hp, hscope⟩ := hwf
    have hport : readNumber 10 none true 65536 (decChars p ++ []) =
        some (p, []) := readPortNum_rep hp (noDigit_nil 10)
    rw [List.append_nil] at hport
    by_cases hs0 : scope = 0
    · subst hs0
      have harr : SockAddr.chars (.v6 segs p 0) =
          '[' :: (ipv6Chars segs ++ (']' :: ':' :: decChars p)) := by
        show ('[' :: ipv6Chars segs) ++ (']' :: ':' :: decChars p) = _
        simp
      have h6 : readIpv6 (ipv6Chars segs ++ (']' :: ':' :: decChars p)) =
          some (segs, ']' :: ':' :: decChars p) :=
        readIpv6_rep segs hlen8 hbound (blockedGroups_rbracket _) (by simp)
      have hscope0 : readScopeId (']' :: ':' :: decChars p) = none := by
        unfold readScopeId
        rw [expectChar_cons_ne _ (by decide)]
        rfl
      have hv4fail : readIpv4 ('[' ::
          (ipv6Chars segs ++ (']' :: ':' :: decChars p))) = none :=
        readIpv4_head_none (noDigit_cons _ ctd_lbracket10)
      rw [harr]
      unfold parseSockChars readSocketAddr readSocketAddrV4
        readSocketAddrV6 readPort
      simp [hv4fail, h6, hscope0, hport, expectChar_cons_self]
    · have harr : SockAddr.chars (.v6 segs p scope) =
          '[' :: (ipv6Chars segs ++
            ('%' :: (decChars scope ++ (']' :: ':' :: decChars p)))) := by
        simp [SockAddr.chars, hs0, List.append_assoc]
      have h6 : readIpv6 (ipv6Chars segs ++
          ('%' :: (decChars scope ++ (']' :: ':' :: decChars p)))) =
          some (segs, '%' :: (decChars scope ++ (']' :: ':' :: decChars p))) :=
        readIpv6_rep segs hlen8 hbound (blockedGroups_percent _) (by simp)
      have hsc : readScopeId ('%' ::
          (decChars scope ++ (']' :: ':' :: decChars p))) =
          some (scope, ']' :: ':' :: decChars p) := by
        unfold readScopeId
        rw [expectChar_cons_self]
        exact readPortNum_rep hscope (noDigit_cons _ ctd_rbracket10)
      have hv4fail : readIpv4 ('[' :: (ipv6Chars segs ++
          ('%' :: (decChars scope ++ (']' :: ':' :: decChars p))))) = none :=
        readIpv4_head_none (noDigit_cons _ ctd_lbracket10)
      rw [harr]
      unfold parseSockChars readSocketAddr readSocketAddrV4
        readSocketAddrV6 readPort
      simp [hv4fail, h6, hsc, hport, expectChar_cons_self]

/-! ## Soundness: parsed addresses satisfy the machine bounds -/

theorem readIpv4_sound {cs : Chars} {ip : Ipv4} {r : Chars}
    (h : readIpv4 cs = some (ip, r)) :
    ip.a < 256 ∧ ip.b < 256 ∧ ip.c < 256 ∧ ip.d < 256 := by
  unfold readIpv4 at h
  simp only [Option.bind_eq_bind, Option.bind_eq_some, Option.pure_def,
    Option.some.injEq] at h
  obtain ⟨⟨a, r1⟩, ha, r1', hr1, ⟨b, r2⟩, hbb, r2', hr2, ⟨c, r3⟩, hcc,
    r3', hr3, ⟨d, r4⟩, hdd, hfin⟩ := h
  have hip : ip = ⟨a, b, c, d⟩ := by
    have hfst := congrArg Prod.fst hfin
    simp at hfst
    exact hfst.symm
  subst hip
  exact ⟨(readNumber_rest ha).2, (readNumber_rest hbb).2,
    (readNumber_rest hcc).2, (readNumber_rest hdd).2⟩

theorem readSeparator_some {α : Type} {sep : Char} {i : Nat}
    {inner : Chars → Option (α × Chars)} {cs : Chars} {x : α × Chars}
    (h : readSeparator sep i inner cs = some x) :
    ∃ cs', inner cs' = some x := by
  unfold readSeparator at h
  split at h
  · exact ⟨cs, h⟩
  · split at h
    · next r heq => exact ⟨r, h⟩
    · exact absurd h (by simp)

theorem readGroupsGo_sound :
    ∀ (rem i : Nat) (cs : Chars),
      (∀ g ∈ (readGroupsGo rem i cs).1, g < 65536) ∧
        (readGroupsGo rem i cs).1.length ≤ rem := by
  intro rem
  induction rem with
  | zero => intro i cs; simp [readGroupsGo]
  | succ rem ih =>
    intro i cs
    rw [readGroupsGo]
    rcases hv4 : (if 1 ≤ rem then readSeparator ':' i readIpv4 cs
        else none) with _ | ⟨v4, rest⟩
    · rcases hhex : readSeparator ':' i readHexGroup cs with _ | ⟨g, rest⟩
      · simp
      · obtain ⟨cs', hinner⟩ := readSeparator_some hhex
        have hg : g < 65536 := (readNumber_rest hinner).2
        constructor
        · intro x hx
          rcases List.mem_cons.mp hx with h | h
          · omega
          · exact (ih (i + 1) rest).1 x h
        · have := (ih (i + 1) rest).2
          simpa using this
    · have h1rem : 1 ≤ rem := by
        by_contra hc
        rw [if_neg hc] at hv4
        exact absurd hv4 (by simp)
      rw [if_pos h1rem] at hv4
      obtain ⟨cs', hinner⟩ := readSeparator_some hv4
      obtain ⟨ha, hbb, hcc, hdd⟩ := readIpv4_sound hinner
      constructor
      · intro x hx
        rcases List.mem_cons.mp hx with h | h
        · omega
        · simp at h
          omega
      · simp
        omega

theorem readIpv6_sound {cs : Chars} {segs : List Nat} {r : Chars}
    (h : readIpv6 cs = some (segs, r)) :
    segs.length = 8 ∧ ∀ s ∈ segs, s < 65536 := by
  rw [readIpv6_eq] at h
  split at h
  · next hlen =>
    rw [Option.some.injEq, Prod.mk.injEq] at h
    rw [← h.1]
    exact ⟨hlen, fun s hs => (readGroupsGo_sound 8 0 cs).1 s hs⟩
  · next hlen8' =>
    split at h
    · exact absurd h (by simp)
    · split at h
      · exact absurd h (by simp)
      · next r2 heq2 =>
        split at h
        · exact absurd h (by simp)
        · next r3 heq3 =>
          split at h
          · exact absurd h (by simp)
          · next hcolon =>
            rw [Option.some.injEq, Prod.mk.injEq] at h
            rw [← h.1]
            have hhead := readGroupsGo_sound 8 0 cs
            have htail := readGroupsGo_sound
              (8 - ((readGroups 8 cs).1.length + 1)) 0 r3
            have hlen8 : (readGroups 8 cs).1.length ≤ 8 := hhead.2
            constructor
            · simp only [List.length_append, List.length_replicate]
              omega
            · intro s hs
              rcases List.mem_append.mp hs with hs1 | hs2
              · rcases List.mem_append.mp hs1 with hs3 | hs4
                · exact hhead.1 s hs3
                · have := List.eq_of_mem_replicate hs4
                  omega
              · exact htail.1 s hs2

theorem readSocketAddr_sound {cs : Chars} {a : SockAddr} {r : Chars}
    (h : readSocketAddr cs = some (a, r)) : a.wf := by
  unfold readSocketAddr at h
  rcases h4 : readSocketAddrV4 cs with _ | res4
  · rw [h4] at h
    unfold readSocketAddrV6 at h
    simp only [Option.bind_eq_bind, Option.bind_eq_some, Option.pure_def,
      Option.some.injEq] at h
    obtain ⟨r1, hr1, ⟨segs, r2⟩, hsegs, r3, hr3, ⟨p, r4⟩, hp, hfin⟩ := h
    have hasock : a = SockAddr.v6 segs p
        (match readScopeId r2 with
         | some pr => pr
         | none => (0, r2)).1 := by
      have hfst := congrArg Prod.fst hfin
      simpa using hfst.symm
    subst hasock
    obtain ⟨hl8, hb⟩ := readIpv6_sound hsegs
    refine ⟨hl8, hb, ?_, ?_⟩
    · unfold readPort at hp
      simp only [Option.bind_eq_bind, Option.bind_eq_some] at hp
      obtain ⟨r5, _, hnum⟩ := hp
      exact (readNumber_rest hnum).2
    · rcases hsc : readScopeId r2 with _ | ⟨sc, rsc⟩
      · show (0 : Nat) < 4294967296
        norm_num
      · show sc < 4294967296
        unfold readScopeId at hsc
        simp only [Option.bind_eq_bind, Option.bind_eq_some] at hsc
        obtain ⟨r6, _, hnum⟩ := hsc
        exact (readNumber_rest hnum).2
  · rw [h4] at h
    rw [Option.some.injEq] at h
    unfold readSocketAddrV4 at h4
    simp only [Option.bind_eq_bind, Option.bind_eq_some, Option.pure_def,
      Option.some.injEq] at h4
    obtain ⟨⟨ip, r1⟩, hip, ⟨p, r2⟩, hp, hfin⟩ := h4
    have hasock : a = SockAddr.v4 ip p := by
      have h5 := congrArg Prod.fst hfin
      have h6 := congrArg Prod.fst h
      simp at h5 h6
      rw [← h6, ← h5]
    subst hasock
    obtain ⟨ha, hbb, hcc, hdd⟩ := readIpv4_sound hip
    refine ⟨ha, hbb, hcc, hdd, ?_⟩
    unfold readPort at hp
    simp only [Option.bind_eq_bind, Option.bind_eq_some] at hp
    obtain ⟨r5, _, hnum⟩ := hp
    exact (readNumber_rest hnum).2

theorem parseSockChars_sound {cs : Chars} {a : SockAddr}
    (h : parseSockChars cs = some a) : a.wf := by
  unfold parseSockChars at h
  split at h
  · next heq =>
    rw [Option.some.injEq] at h
    rw [← h]
    exact readSocketAddr_sound heq
  · exact absurd h (by simp)

/-! ## Rendered addresses contain no whitespace and do not start with ':' -/

theorem mem_decChars {n : Nat} {c : Char} (h : c ∈ decChars n) :
    ∃ d, d < 16 ∧ c = hexDigitChar d := by
  obtain ⟨d, hdm, hdc⟩ := List.mem_map.mp h
  have := repDigits_lt 8 n d hdm
  exact ⟨d, by omega, hdc.symm⟩

theorem mem_hexChars {n : Nat} {c : Char} (h : c ∈ hexChars n) :
    ∃ d, d < 16 ∧ c = hexDigitChar d := by
  obtain ⟨d, hdm, hdc⟩ := List.mem_map.mp h
  have := repDigits_lt 14 n d hdm
  exact ⟨d, by omega, hdc.symm⟩

theorem not_ws_decChars {n : Nat} {c : Char} (h : c ∈ decChars n) :
    rustWhitespace c = false := by
  obtain ⟨d, hd, hc⟩ := mem_decChars h
  rw [hc]
  exact hexDigitChar_not_ws ⟨d, hd⟩

theorem not_ws_hexChars {n : Nat} {c : Char} (h : c ∈ hexChars n) :
    rustWhitespace c = false := by
  obtain ⟨d, hd, hc⟩ := mem_hexChars h
  rw [hc]
  exact hexDigitChar_not_ws ⟨d, hd⟩

theorem not_ws_ipv4Chars (ip : Ipv4) :
    ∀ c ∈ ipv4Chars ip, rustWhitespace c = false := by
  unfold ipv4Chars
  simp only [List.append_assoc, List.cons_append]
  refine List.forall_mem_append.mpr ⟨fun c h => not_ws_decChars h, ?_⟩
  refine List.forall_mem_cons.mpr ⟨by decide, ?_⟩
  refine List.forall_mem_append.mpr ⟨fun c h => not_ws_decChars h, ?_⟩
  refine List.forall_mem_cons.mpr ⟨by decide, ?_⟩
  refine List.forall_mem_append.mpr ⟨fun c h => not_ws_decChars h, ?_⟩
  refine List.forall_mem_cons.mpr ⟨by decide, ?_⟩
  exact fun c h => not_ws_decChars h

theorem not_ws_colonGroups (gs : List Nat) :
    ∀ c ∈ colonGroups gs, rustWhitespace c = false := by
  induction gs with
  | nil => intro c h; simp [colonGroups] at h
  | cons g gs ih =>
    show ∀ c ∈ ':' :: (hexChars g ++ colonGroups gs), rustWhitespace c = false
    refine List.forall_mem_cons.mpr ⟨by decide, ?_⟩
    exact List.forall_mem_append.mpr ⟨fun c h => not_ws_hexChars h, ih⟩

theorem not_ws_groupsChars (gs : List Nat) :
    ∀ c ∈ groupsChars gs, rustWhitespace c = false := by
  rcases gs with _ | ⟨g, gs⟩
  · intro c h
    simp [groupsChars] at h
  · show ∀ c ∈ hexChars g ++ colonGroups gs, rustWhitespace c = false
    exact List.forall_mem_append.mpr
      ⟨fun c h => not_ws_hexChars h, not_ws_colonGroups gs⟩

theorem not_ws_ipv6Chars (segs : List Nat) :
    ∀ c ∈ ipv6Chars segs, rustWhitespace c = false := by
  rcases hmap : v4mapped segs with _ | ip
  · have hdisp : ipv6Chars segs =
        if 1 < (zeroRun segs).2 then
          groupsChars (segs.take (zeroRun segs).1) ++ ':' :: ':' ::
            groupsChars (segs.drop ((zeroRun segs).1 + (zeroRun segs).2))
        else groupsChars segs := by
      unfold ipv6Chars
      rw [hmap]
    rw [hdisp]
    split
    · refine List.forall_mem_append.mpr ⟨not_ws_groupsChars _, ?_⟩
      refine List.forall_mem_cons.mpr ⟨by decide, ?_⟩
      refine List.forall_mem_cons.mpr ⟨by decide, ?_⟩
      exact not_ws_groupsChars _
    · exact not_ws_groupsChars _
  · have hdisp : ipv6Chars segs = ':' :: ':' :: 'f' :: 'f' :: 'f' :: 'f' ::
        ':' :: ipv4Chars ip := by
      unfold ipv6Chars
      rw [hmap]
    rw [hdisp]
    refine List.forall_mem_cons.mpr ⟨by decide, ?_⟩
    refine List.forall_mem_cons.mpr ⟨by decide, ?_⟩
    refine List.forall_mem_cons.mpr ⟨by decide, ?_⟩
    refine List.forall_mem_cons.mpr ⟨by decide, ?_⟩
    refine List.forall_mem_cons.mpr ⟨by decide, ?_⟩
    refine List.forall_mem_cons.mpr ⟨by decide, ?_⟩
    refine List.forall_mem_cons.mpr ⟨by decide, ?_⟩
    exact not_ws_ipv4Chars ip

theorem not_ws_chars (a : SockAddr) :
    ∀ c ∈ a.chars, rustWhitespace c = false := by
  rcases a with ⟨ip, p⟩ | ⟨segs, p, scope⟩
  · show ∀ c ∈ ipv4Chars ip ++ ':' :: decChars p, rustWhitespace c = false
    refine List.forall_mem_append.mpr ⟨not_ws_ipv4Chars ip, ?_⟩
    refine List.forall_mem_cons.mpr ⟨by decide, ?_⟩
    exact fun c h => not_ws_decChars h
  · simp only [SockAddr.chars]
    split
    · simp only [List.append_assoc, List.cons_append]
      refine List.forall_mem_cons.mpr ⟨by decide, ?_⟩
      refine List.forall_mem_append.mpr ⟨not_ws_ipv6Chars segs, ?_⟩
      refine List.forall_mem_cons.mpr ⟨by decide, ?_⟩
      refine List.forall_mem_cons.mpr ⟨by decide, ?_⟩
      exact fun c h => not_ws_decChars h
    · simp only [List.append_assoc, List.cons_append]
      refine List.forall_mem_cons.mpr ⟨by decide, ?_⟩
      refine List.forall_mem_append.mpr ⟨not_ws_ipv6Chars segs, ?_⟩
      refine List.forall_mem_cons.mpr ⟨by decide, ?_⟩
      refine List.forall_mem_append.mpr ⟨fun c h => not_ws_decChars h, ?_⟩
      refine List.forall_mem_cons.mpr ⟨by decide, ?_⟩
      refine List.forall_mem_cons.mpr ⟨by decide, ?_⟩
      exact fun c h => not_ws_decChars h

theorem trimChars_eq_self {cs : Chars}
    (h : ∀ c ∈ cs, rustWhitespace c = false) : trimChars cs = cs := by
  unfold trimChars
  have h1 : cs.dropWhile rustWhitespace = cs := by
    cases cs with
    | nil => rfl
    | cons c t =>
      rw [List.dropWhile_cons]
      rw [h c (List.mem_cons_self c t)]
      simp
  rw [h1]
  have h2 : cs.reverse.dropWhile rustWhitespace = cs.reverse := by
    rcases hrev : cs.reverse with _ | ⟨c, t⟩
    · rfl
    · have hmem : c ∈ cs := by
        rw [← List.mem_reverse, hrev]
        exact List.mem_cons_self c t
      rw [List.dropWhile_cons, h c hmem]
      simp
  rw [h2, List.reverse_reverse]

theorem head_decChars (n : Nat) :
    ∃ d, d < 16 ∧ (decChars n).head? = some (hexDigitChar d) := by
  rcases hrep : repDigits 8 n with _ | ⟨x, t⟩
  · exact absurd hrep (repDigits_ne_nil 8 n)
  · have hx : x < 16 := by
      have := repDigits_lt 8 n x (by rw [hrep]; exact List.mem_cons_self x t)
      omega
    exact ⟨x, hx, by unfold decChars; rw [hrep]; rfl⟩

theorem chars_head_ne_colon (a : SockAddr) : a.chars.head? ≠ some ':' := by
  rcases a with ⟨ip, p⟩ | ⟨segs, p, scope⟩
  · obtain ⟨d, hd, hhead⟩ := head_decChars ip.a
    have harr : SockAddr.chars (.v4 ip p) =
        decChars ip.a ++ ('.' :: decChars ip.b ++ '.' :: decChars ip.c ++
          '.' :: decChars ip.d ++ ':' :: decChars p) := by
      simp [SockAddr.chars, ipv4Chars, List.append_assoc]
    rw [harr]
    rw [List.head?_append_of_ne_nil]
    · rw [hhead]
      intro hcon
      rw [Option.some.injEq] at hcon
      exact hexDigitChar_ne_colon ⟨d, hd⟩ hcon
    · intro hnil
      rw [hnil] at hhead
      exact absurd hhead (by simp)
  · simp only [SockAddr.chars]
    split
    · simp
    · simp

/-! ## Characterizing the guarded controller address -/

theorem default_ctrl_canonical :
    (SockAddr.v4 ⟨127, 0, 0, 1⟩ 9090).wf ∧
      ("127.0.0.1:9090" : String) = (SockAddr.v4 ⟨127, 0, 0, 1⟩ 9090).str ∧
      parseSocketAddr ((SockAddr.v4 ⟨127, 0, 0, 1⟩ 9090).str) =
        some (SockAddr.v4 ⟨127, 0, 0, 1⟩ 9090) := by
  refine ⟨⟨?_, ?_, ?_, ?_, ?_⟩, ?_, ?_⟩ <;> first | omega | decide

theorem guard_server_ctrl_canonical (cfg : Mapping) :
    ∃ a : SockAddr, a.wf ∧ IClashTemp.guard_server_ctrl cfg = a.str ∧
      parseSocketAddr (a.str) = some a := by
  have hdef : ∃ a : SockAddr, a.wf ∧
      ("127.0.0.1:9090" : String) = a.str ∧
      parseSocketAddr (a.str) = some a :=
    ⟨_, default_ctrl_canonical⟩
  unfold IClashTemp.guard_server_ctrl
  rcases hv : mget cfg (.str "external-controller") with _ | v
  · simpa using hdef
  · rcases v with _ | b | nv | s | xs | mm
    · simpa [YValue.as_str] using hdef
    · simpa [YValue.as_str] using hdef
    · simpa [YValue.as_str] using hdef
    · simp only [YValue.as_str, Option.bind_some]
      rcases hps : parseSockChars
          (if (trimChars s.data).head? = some ':' then
            '1' :: '2' :: '7' :: '.' :: '0' :: '.' :: '0' :: '.' :: '1' ::
              trimChars s.data
          else trimChars s.data) with _ | a
      · simpa [hps] using hdef
      · refine ⟨a, parseSockChars_sound hps, ?_, ?_⟩
        · simp [hps]
        · exact roundtrip_sock a (parseSockChars_sound hps)
    · simpa [YValue.as_str] using hdef
    · simpa [YValue.as_str] using hdef

theorem guard_server_ctrl_of_canonical {cfg : Mapping} {a : SockAddr}
    (hwf : a.wf)
    (hv : mget cfg (.str "external-controller") = some (.str a.str)) :
    IClashTemp.guard_server_ctrl cfg = a.str := by
  unfold IClashTemp.guard_server_ctrl
  rw [hv]
  have htrim : trimChars (SockAddr.str a).data = a.chars :=
    trimChars_eq_self (not_ws_chars a)
  have hhd : (trimChars (SockAddr.str a).data).head? ≠ some ':' := by
    rw [htrim]
    exact chars_head_ne_colon a
  simp only [YValue.as_str, Option.some_bind]
  rw [if_neg hhd, htrim, roundtrip_sock a hwf]
  rfl

theorem guard_client_ctrl_canonical (cfg : Mapping) :
    ∃ a : SockAddr, a.wf ∧
      parseSocketAddr (IClashTemp.guard_server_ctrl cfg) = some a ∧
      IClashTemp.guard_client_ctrl cfg =
        (if a.ipUnspecified then a.setLoopback else a).str ∧
      (a.ipUnspecified = false →
        IClashTemp.guard_client_ctrl cfg =
          IClashTemp.guard_server_ctrl cfg) := by
  obtain ⟨a, hwf, heq, hparse⟩ := guard_server_ctrl_canonical cfg
  have hps : parseSockChars (IClashTemp.guard_server_ctrl cfg).data =
      some a := by
    rw [heq]
    exact hparse
  refine ⟨a, hwf, by rw [heq]; exact hparse, ?_, ?_⟩
  · unfold IClashTemp.guard_client_ctrl
    dsimp only
    rw [hps]
    show (if a.ipUnspecified = true then a.setLoopback.str else a.str) =
      (if a.ipUnspecified = true then a.setLoopback else a).str
    by_cases hu : a.ipUnspecified = true
    · rw [if_pos hu, if_pos hu]
    · rw [if_neg hu, if_neg hu]
  · intro hnu
    unfold IClashTemp.guard_client_ctrl
    dsimp only
    rw [hps]
    show (if a.ipUnspecified = true then a.setLoopback.str else a.str) =
      IClashTemp.guard_server_ctrl cfg
    rw [if_neg (by simp [hnu]), heq]

/-! ## Bounds of the guarded mixed port -/

theorem parseU16Body_lt {body : Chars} {v : Nat}
    (h : parseU16Body body = some v) : v < 65536 := by
  unfold parseU16Body at h
  split at h
  · exact absurd h (by simp)
  · split at h
    · split at h
      · rw [Option.some.injEq] at h
        omega
      · exact absurd h (by simp)
    · exact absurd h (by simp)

theorem parseU16Chars_lt {cs : Chars} {v : Nat}
    (h : parseU16Chars cs = some v) : v < 65536 :=
  parseU16Body_lt h

theorem guard_mixed_port_eq (cfg : Mapping) :
    IClashTemp.guard_mixed_port cfg =
      if ((mget cfg (.str "mixed-port")).bind (fun value =>
          match value with
          | .str s => parseU16Chars s.data
          | .num n => (YNum.as_u64 n).map (fun u => u % 65536)
          | _ => none)).getD 7890 = 0 then 7890
      else ((mget cfg (.str "mixed-port")).bind (fun value =>
          match value with
          | .str s => parseU16Chars s.data
          | .num n => (YNum.as_u64 n).map (fun u => u % 65536)
          | _ => none)).getD 7890 :=
  rfl

theorem guard_mixed_port_lt (cfg : Mapping) :
    IClashTemp.guard_mixed_port cfg < 65536 := by
  rw [guard_mixed_port_eq]
  split
  · omega
  · rcases hv : (mget cfg (.str "mixed-port")) with _ | v
    · simp
    · rcases v with _ | b | nv | s | xs | mm
      · simp
      · simp
      · simp only [Option.some_bind]
        rcases hn : YNum.as_u64 nv with _ | u
        · simp
        · have hmod : u % 65536 < 65536 := by omega
          simpa using hmod
      · simp only [Option.some_bind]
        rcases hp : parseU16Chars s.data with _ | p
        · simp
        · simpa using parseU16Chars_lt hp
      · simp
      · simp

theorem guard_mixed_port_pos (cfg : Mapping) :
    0 < IClashTemp.guard_mixed_port cfg := by
  rw [guard_mixed_port_eq]
  split
  · omega
  · next hne => omega

/-! ## Mapping (IndexMap) algebra -/

theorem mget_map_ne {k v q : YValue} (hq : q ≠ k) :
    ∀ m : Mapping,
      mget (m.map (fun p => if p.1 = k then (k, v) else p)) q = mget m q := by
  intro m
  induction m with
  | nil => rfl
  | cons p rest ih =>
    rw [List.map_cons]
    by_cases hp : p.1 = k
    · rw [if_pos hp]
      unfold mget
      split
      · next hcond => exact absurd hcond.symm hq
      · rw [if_neg (show ¬p.1 = q by
          rw [hp]
          intro hc
          exact hq hc.symm)]
        exact ih
    · rw [if_neg hp]
      unfold mget
      by_cases hc : p.1 = q
      · rw [if_pos hc, if_pos hc]
      · rw [if_neg hc, if_neg hc]
        exact ih

theorem mget_append_one_ne {k v q : YValue} (hq : q ≠ k) :
    ∀ m : Mapping, mget (m ++ [(k, v)]) q = mget m q := by
  intro m
  induction m with
  | nil =>
    show mget [(k, v)] q = none
    unfold mget
    rw [if_neg (show ¬((k, v) : YValue × YValue).1 = q from
      fun hc => hq hc.symm)]
    rfl
  | cons p rest ih =>
    rw [List.cons_append]
    unfold mget
    by_cases hc : p.1 = q
    · rw [if_pos hc, if_pos hc]
    · rw [if_neg hc, if_neg hc]
      exact ih

theorem mget_minsert_ne (m : Mapping) (k v : YValue) {q : YValue}
    (hq : q ≠ k) : mget (minsert m k v) q = mget m q := by
  unfold minsert
  split
  · exact mget_map_ne hq m
  · exact mget_append_one_ne hq m

theorem mcontains_map_ne {k v q : YValue} (hq : q ≠ k) :
    ∀ m : Mapping,
      mcontains (m.map (fun p => if p.1 = k then (k, v) else p)) q =
        mcontains m q := by
  intro m
  induction m with
  | nil => rfl
  | cons p rest ih =>
    rw [List.map_cons]
    by_cases hp : p.1 = k
    · rw [if_pos hp]
      unfold mcontains
      split
      · next hcond => exact absurd hcond.symm hq
      · rw [if_neg (show ¬p.1 = q by
          rw [hp]
          intro hc
          exact hq hc.symm)]
        exact ih
    · rw [if_neg hp]
      unfold mcontains
      by_cases hc : p.1 = q
      · rw [if_pos hc, if_pos hc]
      · rw [if_neg hc, if_neg hc]
        exact ih

theorem mcontains_append_one_ne {k v q : YValue} (hq : q ≠ k) :
    ∀ m : Mapping, mcontains (m ++ [(k, v)]) q = mcontains m q := by
  intro m
  induction m with
  | nil =>
    show mcontains [(k, v)] q = false
    unfold mcontains
    rw [if_neg (show ¬((k, v) : YValue × YValue).1 = q from
      fun hc => hq hc.symm)]
    rfl
  | cons p rest ih =>
    rw [List.cons_append]
    unfold mcontains
    by_cases hc : p.1 = q
    · rw [if_pos hc, if_pos hc]
    · rw [if_neg hc, if_neg hc]
      exact ih

theorem mcontains_minsert_ne (m : Mapping) (k v : YValue) {q : YValue}
    (hq : q ≠ k) : mcontains (minsert m k v) q = mcontains m q := by
  unfold minsert
  split
  · exact mcontains_map_ne hq m
  · exact mcontains_append_one_ne hq m

theorem mget_minsert_self (m : Mapping) (k v : YValue) :
    mget (minsert m k v) k = some v := by
  unfold minsert
  split
  · next hcont =>
    induction m with
    | nil => simp [mcontains] at hcont
    | cons p rest ih =>
      rw [List.map_cons]
      by_cases hp : p.1 = k
      · rw [if_pos hp]
        simp [mget]
      · rw [if_neg hp]
        unfold mget
        rw [if_neg hp]
        apply ih
        unfold mcontains at hcont
        rw [if_neg hp] at hcont
        exact hcont
  · induction m with
    | nil => simp [mget]
    | cons p rest ih =>
      next hcont =>
      unfold mcontains at hcont
      by_cases hp : p.1 = k
      · rw [if_pos hp] at hcont
        simp at hcont
      · rw [if_neg hp] at hcont
        rw [List.cons_append]
        unfold mget
        rw [if_neg hp]
        exact ih hcont

theorem mcontains_minsert_self (m : Mapping) (k v : YValue) :
    mcontains (minsert m k v) k = true := by
  unfold minsert
  split
  · next hcont =>
    induction m with
    | nil => simp [mcontains] at hcont
    | cons p rest ih =>
      rw [List.map_cons]
      by_cases hp : p.1 = k
      · rw [if_pos hp]
        simp [mcontains]
      · rw [if_neg hp]
        unfold mcontains
        rw [if_neg hp]
        apply ih
        unfold mcontains at hcont
        rw [if_neg hp] at hcont
        exact hcont
  · induction m with
    | nil => simp [mcontains]
    | cons p rest ih =>
      next hcont =>
      unfold mcontains at hcont
      by_cases hp : p.1 = k
      · rw [if_pos hp] at hcont
        simp at hcont
      · rw [if_neg hp] at hcont
        rw [List.cons_append]
        unfold mcontains
        rw [if_neg hp]
        exact ih hcont

theorem mcontains_of_mem {m : Mapping} {p : YValue × YValue} (hp : p ∈ m) :
    mcontains m p.1 = true := by
  induction m with
  | nil => simp at hp
  | cons q rest ih =>
    unfold mcontains
    by_cases hq : q.1 = p.1
    · rw [if_pos hq]
    · rw [if_neg hq]
      rcases List.mem_cons.mp hp with h1 | h1
      · rw [h1] at hq
        exact absurd rfl hq
      · exact ih h1


theorem allKeyVal_minsert_self (m : Mapping) (k v : YValue) :
    AllKeyVal (minsert m k v) k v := by
  unfold minsert
  split
  · intro p hp hpk
    obtain ⟨q, hq, hmap⟩ := List.mem_map.mp hp
    by_cases hqk : q.1 = k
    · rw [if_pos hqk] at hmap
      exact hmap.symm
    · rw [if_neg hqk] at hmap
      rw [← hmap] at hpk
      exact absurd hpk hqk
  · next hcont =>
    intro p hp hpk
    rcases List.mem_append.mp hp with h | h
    · exfalso
      have := mcontains_of_mem h
      rw [hpk] at this
      rw [this] at hcont
      exact hcont rfl
    · simpa using List.mem_singleton.mp h

theorem allKeyVal_minsert_other {m : Mapping} {k v : YValue}
    (h : AllKeyVal m k v) {k' v' : YValue} (hk : k' ≠ k) :
    AllKeyVal (minsert m k' v') k v := by
  unfold minsert
  split
  · intro p hp hpk
    obtain ⟨q, hq, hmap⟩ := List.mem_map.mp hp
    by_cases hqk : q.1 = k'
    · rw [if_pos hqk] at hmap
      rw [← hmap] at hpk
      exact absurd hpk hk
    · rw [if_neg hqk] at hmap
      rw [← hmap] at hpk ⊢
      exact h q hq hpk
  · intro p hp hpk
    rcases List.mem_append.mp hp with h1 | h1
    · exact h p h1 hpk
    · have hps := List.mem_singleton.mp h1
      rw [hps] at hpk
      exact absurd hpk hk

theorem list_map_fix {α : Type} (f : α → α) :
    ∀ l : List α, (∀ a ∈ l, f a = a) → l.map f = l := by
  intro l h
  induction l with
  | nil => rfl
  | cons a t ih =>
    rw [List.map_cons, h a (List.mem_cons_self a t),
      ih (fun x hx => h x (List.mem_cons_of_mem a hx))]

theorem minsert_eq_self {m : Mapping} {k v : YValue}
    (hall : AllKeyVal m k v) (hcont : mcontains m k = true) :
    minsert m k v = m := by
  unfold minsert
  rw [if_pos hcont]
  apply list_map_fix
  intro p hp
  by_cases hpk : p.1 = k
  · rw [if_pos hpk]
    exact (hall p hp hpk).symm
  · rw [if_neg hpk]

/-! ## Patch (upsert fold) lemmas -/


theorem mcontains_iff_mem_keys {m : Mapping} {k : YValue} :
    mcontains m k = true ↔ k ∈ keysOf m := by
  induction m with
  | nil => simp [mcontains, keysOf]
  | cons p rest ih =>
    unfold mcontains
    by_cases hp : p.1 = k
    · rw [if_pos hp]
      simp [keysOf, hp]
    · rw [if_neg hp]
      simp only [keysOf, List.map_cons, List.mem_cons]
      constructor
      · intro h
        exact Or.inr (by rw [← keysOf]; exact ih.mp h)
      · intro h
        rcases h with h | h
        · exact absurd h.symm hp
        · exact ih.mpr (by rw [keysOf]; exact h)

theorem patch_config_cons (doc : Mapping) (p : YValue × YValue)
    (rest : Mapping) :
    IClashTemp.patch_config doc (p :: rest) =
      IClashTemp.patch_config (minsert doc p.1 p.2) rest :=
  rfl

theorem mget_patch_not_contains {changes : Mapping} {k : YValue}
    (hk : mcontains changes k = false) :
    ∀ doc : Mapping,
      mget (IClashTemp.patch_config doc changes) k = mget doc k := by
  induction changes with
  | nil => intro doc; rfl
  | cons p rest ih =>
    intro doc
    unfold mcontains at hk
    by_cases hp : p.1 = k
    · rw [if_pos hp] at hk
      exact absurd hk (by simp)
    · rw [if_neg hp] at hk
      rw [patch_config_cons, ih hk]
      exact mget_minsert_ne doc p.1 p.2 (fun hc => hp hc.symm)

theorem mget_patch_contains {changes : Mapping} (hnd : (keysOf changes).Nodup) :
    ∀ {k : YValue}, mcontains changes k = true →
    ∀ doc : Mapping,
      mget (IClashTemp.patch_config doc changes) k = mget changes k := by
  induction changes with
  | nil => intro k hk; simp [mcontains] at hk
  | cons p rest ih =>
    intro k hk doc
    rw [patch_config_cons]
    unfold mcontains at hk
    have hnd2 : (p.1 :: keysOf rest).Nodup := hnd
    by_cases hp : p.1 = k
    · have hnotin : mcontains rest k = false := by
        by_contra hc
        rw [Bool.not_eq_false] at hc
        have hmem := mcontains_iff_mem_keys.mp hc
        have hni := (List.nodup_cons.mp hnd2).1
        rw [hp] at hni
        exact hni hmem
      rw [mget_patch_not_contains hnotin, ← hp,
        mget_minsert_self doc p.1 p.2,
        show mget (p :: rest) p.1 =
          if p.1 = p.1 then some p.2 else mget rest p.1 from rfl,
        if_pos rfl]
    · rw [if_neg hp] at hk
      have hnd' : (keysOf rest).Nodup := (List.nodup_cons.mp hnd2).2
      rw [ih hnd' hk (minsert doc p.1 p.2),
        show mget (p :: rest) k =
          if p.1 = k then some p.2 else mget rest k from rfl,
        if_neg hp]

theorem mcontains_minsert_rev {m : Mapping} {k v q : YValue}
    (h : mcontains (minsert m k v) q = true) :
    mcontains m q = true ∨ q = k := by
  by_cases hq : q = k
  · exact Or.inr hq
  · rw [mcontains_minsert_ne m k v hq] at h
    exact Or.inl h

theorem mget_minsert_self_pair (m : Mapping) (k v : YValue) :
    mget (minsert m k v) k = some v := mget_minsert_self m k v

/-! ## Helper equations for `guard` and `prepare_external_controller_port` -/

theorem guard_eq (cfg : Mapping) :
    IClashTemp.guard cfg =
      minsert (minsert cfg (.str "mixed-port")
          (.num (.pos (IClashTemp.guard_mixed_port cfg))))
        (.str "external-controller")
        (.str (IClashTemp.guard_server_ctrl cfg)) :=
  rfl

theorem prepare_eq {E : Type} (resolve : Nat → Except E Nat) (cfg : Mapping) :
    IClashTemp.prepare_external_controller_port resolve cfg =
      match resolve (clientPortNum cfg) with
      | .error e => (.error e, cfg)
      | .ok port =>
        if port ≠ clientPortNum cfg then
          (.ok (), IClashTemp.patch_config cfg
            [(.str "external-controller",
              .str ⟨clientHostPre cfg ++ ':' :: decChars port⟩)])
        else (.ok (), cfg) :=
  rfl

theorem setLoopback_wf {a : SockAddr} (h : a.wf) : a.setLoopback.wf := by
  rcases a with ⟨ip, p⟩ | ⟨segs, p, scope⟩
  · exact ⟨by decide, by decide, by decide, by decide, h.2.2.2.2⟩
  · exact ⟨by decide, by decide, by decide, by decide, h.2.2.1⟩

theorem guard_mixed_port_of_pos {cfg : Mapping} {p : Nat}
    (hv : mget cfg (.str "mixed-port") = some (.num (.pos p)))
    (hp : 0 < p) (hlt : p < 65536) :
    IClashTemp.guard_mixed_port cfg = p := by
  rw [guard_mixed_port_eq, hv]
  have hmod : p % 65536 = p := Nat.mod_eq_of_lt hlt
  simp only [Option.some_bind, YNum.as_u64, Option.map_some',
    Option.getD_some, hmod]
  rw [if_neg (by omega)]

/-! ## The claims -/

/-- C1: for every document, `guard_mixed_port` returns the value
unchanged when `mixed-port` holds an in-range (1..65535) `u64` number or
a string parsing as a nonzero `u16`; truncates an out-of-range number
`mod 2 ^ 16` (with a zero residue defaulting); and returns `7890` for a
missing key, an unconvertible shape, a failed string parse, or an exact
zero — i.e. it coincides with the spec-worded `mixedPortSpec` on every
document. -/
theorem claim_C1 :
    ∀ cfg : Mapping, IClashTemp.guard_mixed_port cfg = mixedPortSpec cfg := by
  intro cfg
  rw [guard_mixed_port_eq]
  unfold mixedPortSpec
  rcases hv : mget cfg (.str "mixed-port") with _ | v
  · simp
  · rcases v with _ | b | nv | s | xs | mm
    · simp
    · simp
    · simp only [Option.some_bind]
      rcases hn : YNum.as_u64 nv with _ | u
      · simp
      · simp only [Option.map_some', Option.getD_some]
        by_cases h1 : 1 ≤ u ∧ u ≤ 65535
        · rw [if_pos h1]
          have hmod : u % 65536 = u := Nat.mod_eq_of_lt (by omega)
          rw [hmod, if_neg (by omega)]
        · rw [if_neg h1]
    · simp only [Option.some_bind]
      rcases hp : parseU16Chars s.data with _ | p
      · simp
      · simp only [Option.getD_some]
    · simp
    · simp

/-- C2: `guard` is idempotent — guarding an already guarded document
changes nothing, for every document. -/
theorem claim_C2 :
    ∀ cfg : Mapping, IClashTemp.guard (IClashTemp.guard cfg) =
      IClashTemp.guard cfg := by
  intro cfg
  have hne : (YValue.str "external-controller") ≠ (YValue.str "mixed-port") :=
    by decide
  have hne' : (YValue.str "mixed-port") ≠ (YValue.str "external-controller") :=
    by decide
  obtain ⟨a, hwf, heq, hparse⟩ := guard_server_ctrl_canonical cfg
  have hGmp : mget (IClashTemp.guard cfg) (.str "mixed-port") =
      some (.num (.pos (IClashTemp.guard_mixed_port cfg))) := by
    rw [guard_eq cfg, mget_minsert_ne _ _ _ hne', mget_minsert_self]
  have hGec : mget (IClashTemp.guard cfg) (.str "external-controller") =
      some (.str a.str) := by
    rw [guard_eq cfg, mget_minsert_self, heq]
  have h1 : IClashTemp.guard_mixed_port (IClashTemp.guard cfg) =
      IClashTemp.guard_mixed_port cfg :=
    guard_mixed_port_of_pos hGmp (guard_mixed_port_pos cfg)
      (guard_mixed_port_lt cfg)
  have h2 : IClashTemp.guard_server_ctrl (IClashTemp.guard cfg) =
      IClashTemp.guard_server_ctrl cfg :=
    (guard_server_ctrl_of_canonical hwf hGec).trans heq.symm
  rw [guard_eq (IClashTemp.guard cfg), h1, h2]
  have hall_mp : AllKeyVal (IClashTemp.guard cfg) (.str "mixed-port")
      (.num (.pos (IClashTemp.guard_mixed_port cfg))) := by
    rw [guard_eq cfg]
    exact allKeyVal_minsert_other (allKeyVal_minsert_self _ _ _) hne
  have hcont_mp : mcontains (IClashTemp.guard cfg) (.str "mixed-port") =
      true := by
    rw [guard_eq cfg, mcontains_minsert_ne _ _ _ hne']
    exact mcontains_minsert_self _ _ _
  have hall_ec : AllKeyVal (IClashTemp.guard cfg)
      (.str "external-controller")
      (.str (IClashTemp.guard_server_ctrl cfg)) := by
    rw [guard_eq cfg]
    exact allKeyVal_minsert_self _ _ _
  have hcont_ec : mcontains (IClashTemp.guard cfg)
      (.str "external-controller") = true := by
    rw [guard_eq cfg]
    exact mcontains_minsert_self _ _ _
  rw [minsert_eq_self hall_mp hcont_mp, minsert_eq_self hall_ec hcont_ec]

/-- C3: `guard_server_ctrl` coincides on every document with the
spec-worded `serverCtrlSpec` (read the string, trim, prefix `127.0.0.1`
to a `:`-led value, parse as a socket address, canonically re-serialize
on success, default to `127.0.0.1:9090` on any failure); in particular
`"0.0.0.0:8080  "` normalizes to `"0.0.0.0:8080"`, `":98888"` and
`"192.168.1.1:80800"` fall back to `"127.0.0.1:9090"`, and `"[::]:8080"`
keeps its canonical bracketed form. -/
theorem claim_C3 :
    (∀ cfg : Mapping,
      IClashTemp.guard_server_ctrl cfg = serverCtrlSpec cfg) ∧
    IClashTemp.guard_server_ctrl
      [(.str "external-controller", .str "0.0.0.0:8080  ")] =
      "0.0.0.0:8080" ∧
    IClashTemp.guard_server_ctrl
      [(.str "external-controller", .str ":98888")] = "127.0.0.1:9090" ∧
    IClashTemp.guard_server_ctrl
      [(.str "external-controller", .str "192.168.1.1:80800")] =
      "127.0.0.1:9090" ∧
    IClashTemp.guard_server_ctrl
      [(.str "external-controller", .str "[::]:8080")] = "[::]:8080" := by
  refine ⟨fun cfg => ?_, by decide, by decide, by decide, by decide⟩
  unfold IClashTemp.guard_server_ctrl serverCtrlSpec
  rcases hv : mget cfg (.str "external-controller") with _ | v
  · simp
  · rcases v with _ | b | nv | s | xs | mm
    · simp [YValue.as_str]
    · simp [YValue.as_str]
    · simp [YValue.as_str]
    · simp only [YValue.as_str, Option.some_bind]
      rcases hps : parseSockChars
          (if (trimChars s.data).head? = some ':' then
            '1' :: '2' :: '7' :: '.' :: '0' :: '.' :: '0' :: '.' :: '1' ::
              trimChars s.data
          else trimChars s.data) with _ | a
      · simp [hps]
      · simp [hps]
    · simp [YValue.as_str]
    · simp [YValue.as_str]

/-- C4: `guard_client_ctrl` equals `guard_server_ctrl` whenever the
guarded server address's host is not the unspecified address, and when
it is unspecified (`0.0.0.0` or `::`) the client address is the same
port on host `127.0.0.1`; in particular `"0.0.0.0:8080"` and
`"[::]:8080"` both yield `"127.0.0.1:8080"` while `"192.168.1.1:8080"`
passes through unchanged. -/
theorem claim_C4 :
    (∀ cfg : Mapping, ∃ a : SockAddr,
      parseSocketAddr (IClashTemp.guard_server_ctrl cfg) = some a ∧
      (a.ipUnspecified = false →
        IClashTemp.guard_client_ctrl cfg =
          IClashTemp.guard_server_ctrl cfg) ∧
      (a.ipUnspecified = true →
        IClashTemp.guard_client_ctrl cfg =
          (SockAddr.v4 ⟨127, 0, 0, 1⟩ a.port).str)) ∧
    IClashTemp.guard_client_ctrl
      [(.str "external-controller", .str "0.0.0.0:8080")] =
      "127.0.0.1:8080" ∧
    IClashTemp.guard_client_ctrl
      [(.str "external-controller", .str "[::]:8080")] =
      "127.0.0.1:8080" ∧
    IClashTemp.guard_client_ctrl
      [(.str "external-controller", .str "192.168.1.1:8080")] =
      "192.168.1.1:8080" := by
  refine ⟨fun cfg => ?_, by decide, by decide, by decide⟩
  obtain ⟨a, hwf, hparse, hclient, hsame⟩ := guard_client_ctrl_canonical cfg
  refine ⟨a, hparse, hsame, fun hu => ?_⟩
  rw [hclient, hu, if_pos rfl]
  rcases a with ⟨ip, p⟩ | ⟨segs, p, scope⟩
  · rfl
  · rfl

/-- C5: `guard` rewrites only the keys `mixed-port` and
`external-controller`: every other key keeps its exact value and its
presence status — in particular all other keys of the input survive
unchanged and no new key beyond those two appears. -/
theorem claim_C5 (cfg : Mapping) (k : YValue)
    (h1 : k ≠ .str "mixed-port") (h2 : k ≠ .str "external-controller") :
    mget (IClashTemp.guard cfg) k = mget cfg k ∧
    mcontains (IClashTemp.guard cfg) k = mcontains cfg k := by
  constructor
  · rw [guard_eq cfg, mget_minsert_ne _ _ _ h2, mget_minsert_ne _ _ _ h1]
  · rw [guard_eq cfg, mcontains_minsert_ne _ _ _ h2,
      mcontains_minsert_ne _ _ _ h1]

theorem claim_C5_witness :
    mget (IClashTemp.guard [(YValue.str "log-level", YValue.str "info")])
        (.str "log-level") =
      mget [(YValue.str "log-level", YValue.str "info")]
        (.str "log-level") ∧
    mcontains (IClashTemp.guard
        [(YValue.str "log-level", YValue.str "info")]) (.str "log-level") =
      mcontains [(YValue.str "log-level", YValue.str "info")]
        (.str "log-level") :=
  claim_C5 _ _ (by decide) (by decide)

/-- C6: `patch_config` upserts exactly the keys of the change set: when
the change set's keys are distinct, a key listed in it ends up with the
change set's value for it, and every key not listed keeps its prior
value (and in particular its prior presence or absence) in the result. -/
theorem claim_C6 (doc changes : Mapping)
    (hnd : (keysOf changes).Nodup) (k : YValue) :
    (mcontains changes k = true →
      mget (IClashTemp.patch_config doc changes) k = mget changes k) ∧
    (mcontains changes k = false →
      mget (IClashTemp.patch_config doc changes) k = mget doc k) :=
  ⟨fun h => mget_patch_contains hnd h doc,
   fun h => mget_patch_not_contains h doc⟩

theorem claim_C6_witness :
    mget (IClashTemp.patch_config
        [(YValue.str "a", YValue.null),
         (YValue.str "c", YValue.num (.pos 3))]
        [(YValue.str "a", YValue.bool true),
         (YValue.str "b", YValue.num (.pos 1))]) (.str "a") =
      mget [(YValue.str "a", YValue.bool true),
        (YValue.str "b", YValue.num (.pos 1))] (.str "a") ∧
    mget (IClashTemp.patch_config
        [(YValue.str "a", YValue.null),
         (YValue.str "c", YValue.num (.pos 3))]
        [(YValue.str "a", YValue.bool true),
         (YValue.str "b", YValue.num (.pos 1))]) (.str "c") =
      mget [(YValue.str "a", YValue.null),
        (YValue.str "c", YValue.num (.pos 3))] (.str "c") :=
  ⟨(claim_C6 _ _ (by decide) _).1 (by decide),
   (claim_C6 _ _ (by decide) _).2 (by decide)⟩

/-- C7 (amended): `prepare_external_controller_port` splits the client
address at its FIRST colon; the compared "configured port" is the parse
of everything after that first colon (defaulting to `9090` when that
parse fails, as it does for a bracketed IPv6 host), not necessarily the
address's real port.  When the resolved port equals that extracted
value the document is unchanged; otherwise exactly the
`external-controller` key is set to `prefix:resolved-port`, where
`prefix` is the text before the first colon — for an IPv4 host this
preserves the host, but for a bracketed IPv6 host it truncates it. -/
theorem claim_C7 {E : Type} (resolve : Nat → Except E Nat)
    (cfg : Mapping) (p : Nat)
    (hres : resolve (clientPortNum cfg) = Except.ok p) :
    (p = clientPortNum cfg →
      IClashTemp.prepare_external_controller_port resolve cfg =
        (Except.ok (), cfg)) ∧
    (p ≠ clientPortNum cfg →
      mget (IClashTemp.prepare_external_controller_port resolve cfg).2
          (.str "external-controller") =
        some (.str ⟨clientHostPre cfg ++ ':' :: decChars p⟩) ∧
      ∀ k, k ≠ .str "external-controller" →
        mget (IClashTemp.prepare_external_controller_port resolve cfg).2
            k =
          mget cfg k) := by
  have heq : IClashTemp.prepare_external_controller_port resolve cfg =
      if p ≠ clientPortNum cfg then
        (Except.ok (), IClashTemp.patch_config cfg
          [(.str "external-controller",
            .str ⟨clientHostPre cfg ++ ':' :: decChars p⟩)])
      else (Except.ok (), cfg) := by
    rw [prepare_eq, hres]
  constructor
  · intro hp
    rw [heq, if_neg (fun hn => hn hp)]
  · intro hp
    rw [heq, if_pos hp]
    exact ⟨mget_minsert_self cfg _ _, fun k hk => mget_minsert_ne cfg _ _ hk⟩

theorem claim_C7_witness :
    IClashTemp.prepare_external_controller_port
        (fun _ => (Except.ok 8080 : Except Unit Nat))
        [(YValue.str "external-controller",
          YValue.str "192.168.1.1:8080")] =
      (Except.ok (),
        [(YValue.str "external-controller",
          YValue.str "192.168.1.1:8080")]) :=
  (claim_C7 (fun _ => Except.ok 8080) _ 8080 rfl).1 (by decide)

/-- C7 original is false: on a document whose client-reachable
controller address is `"[2001:db8::1]:8080"` (a bracketed IPv6 host
with real port `8080`), a resolver that returns that very port `8080`
still mutates the document — and mangles the host, leaving
`"[2001:8080"` under `external-controller`. -/
theorem claim_C7_counterexample :
    (IClashTemp.get_client_info
        [(YValue.str "external-controller",
          YValue.str "[2001:db8::1]:8080")]).server =
      "[2001:db8::1]:8080" ∧
    (IClashTemp.prepare_external_controller_port
        (fun _ => (Except.ok 8080 : Except Unit Nat))
        [(YValue.str "external-controller",
          YValue.str "[2001:db8::1]:8080")]).2 =
      [(YValue.str "external-controller", YValue.str "[2001:8080")] := by
  decide

/-- C8: the only failure `prepare_external_controller_port` can surface
is the external port-resolution call's: when that call errors the
operation returns exactly that error with the document untouched, and
when it succeeds the operation returns success (local split/parse steps
never produce an error). -/
theorem claim_C8 {E : Type} (resolve : Nat → Except E Nat)
    (cfg : Mapping) :
    (∀ e, resolve (clientPortNum cfg) = Except.error e →
      IClashTemp.prepare_external_controller_port resolve cfg =
        (Except.error e, cfg)) ∧
    (∀ p, resolve (clientPortNum cfg) = Except.ok p →
      (IClashTemp.prepare_external_controller_port resolve cfg).1 =
        Except.ok ()) := by
  constructor
  · intro e he
    rw [prepare_eq, he]
  · intro p hp
    have heq : IClashTemp.prepare_external_controller_port resolve cfg =
        if p ≠ clientPortNum cfg then
          (Except.ok (), IClashTemp.patch_config cfg
            [(.str "external-controller",
              .str ⟨clientHostPre cfg ++ ':' :: decChars p⟩)])
        else (Except.ok (), cfg) := by
      rw [prepare_eq, hp]
    rw [heq]
    split
    · rfl
    · rfl

theorem claim_C8_witness :
    IClashTemp.prepare_external_controller_port
        (fun _ => (Except.error () : Except Unit Nat)) [] =
      (Except.error (), []) :=
  (claim_C8 (fun _ => Except.error ()) []).1 () rfl

/-- C9: `get_client_info` is total with safe defaults: on the empty
document it yields port `7890`, server `"127.0.0.1:9090"`, no secret;
and on every document — however malformed — the returned port is a
nonzero `u16` and the returned server string is a parseable socket
address. -/
theorem claim_C9 :
    IClashTemp.get_client_info [] =
      { port := 7890, server := "127.0.0.1:9090", secret := none } ∧
    ∀ cfg : Mapping,
      0 < (IClashTemp.get_client_info cfg).port ∧
      (IClashTemp.get_client_info cfg).port < 65536 ∧
      ∃ a : SockAddr, a.wf ∧
        parseSocketAddr ((IClashTemp.get_client_info cfg).server) =
          some a := by
  refine ⟨by decide, fun cfg => ⟨guard_mixed_port_pos cfg,
    guard_mixed_port_lt cfg, ?_⟩⟩
  obtain ⟨a, hwf, hparse, hclient, hsame⟩ := guard_client_ctrl_canonical cfg
  have hbwf : (if a.ipUnspecified then a.setLoopback else a).wf := by
    by_cases hu : a.ipUnspecified
    · rw [if_pos hu]
      exact setLoopback_wf hwf
    · rw [if_neg hu]
      exact hwf
  refine ⟨if a.ipUnspecified then a.setLoopback else a, hbwf, ?_⟩
  show parseSocketAddr (IClashTemp.guard_client_ctrl cfg) = _
  rw [hclient]
  exact roundtrip_sock _ hbwf

/-- C10: a numeric `mixed-port` that `as_u64` cannot represent (a
negative integer or a float) defaults to `7890` instead of being
truncated modulo `2 ^ 16` — a `mixed-port` of `-1` yields `7890`, not
`65535`. -/
theorem claim_C10 (cfg : Mapping) (n : YNum)
    (hv : mget cfg (.str "mixed-port") = some (.num n))
    (hn : YNum.as_u64 n = none) :
    IClashTemp.guard_mixed_port cfg = 7890 := by
  rw [guard_mixed_port_eq, hv]
  simp only [Option.some_bind, hn, Option.map_none', Option.getD_none]
  rw [if_neg (by omega)]

theorem claim_C10_witness :
    IClashTemp.guard_mixed_port
      [(YValue.str "mixed-port", YValue.num (.neg 0))] = 7890 :=
  claim_C10 _ (.neg 0) (by decide) (by decide)
